import Mathlib

/-!
Verification of the `macaddress` library (file `macaddress.py`).

The development shallowly embeds the library's data model and operations:

* `Kind` models a hardware-address class's configuration data (`size` in bits
  plus the list of `formats` templates), matching the class attributes of
  `HWAddress` subclasses.
* `HW` models a constructed hardware-address value: its kind together with the
  stored `_address` integer.
* `fromInteger`, `fromBytes`, `fromText`, `toInt`, `toBytes`, `render` model
  `HWAddress.__init__` (its three input branches), `__int__`, `__bytes__`
  and `__str__`.
* `parseCore` models the module-level `_parse` (the window-narrowing format
  matcher); `parse` models the public `parse` function.
* `Cls`, `isSubclass`, `eqHW`, `neHW` model the runtime-class information used
  by `__eq__`/`__ne__` (`isinstance` checks over the catalog of concrete
  classes, where `MAC` subclasses `EUI48`).
* `alignedAddressIntegers`, `hwLt`, `hwLe`, `hwGt`, `hwGe` model
  `_aligned_address_integers` and the four comparison methods.

Machine integers are `Nat`/`Int`; Python strings are `List Char`; `bytes`
values are `List Nat` with each element below 256; fallible constructors
return `Except HWError _`.
-/

/-- The module constant `_HEX_DIGITS = "0123456789ABCDEFabcdef"`. -/
def hexDigitsStr : List Char := "0123456789ABCDEFabcdef".toList

/-- The test `character in _HEX_DIGITS` from `_parse`. -/
def isHexDigit (c : Char) : Bool := hexDigitsStr.contains c

/-- Python's `int(character, 16)` on a single hexadecimal digit. -/
def hexVal (c : Char) : Nat :=
  if c ≤ '9' then c.toNat - '0'.toNat
  else if c ≤ 'F' then c.toNat - 'A'.toNat + 10
  else c.toNat - 'a'.toNat + 10

/-- The indexing `_HEX_DIGITS[nibble]` from `HWAddress.__str__`. -/
def hexDigitChar (n : Nat) : Char := hexDigitsStr.getD n '0'

/-- The normalization step of `_parse`: a hexadecimal digit of the input is
replaced by the wildcard symbol, every other character is kept as-is. -/
def normChar (c : Char) : Char := if isHexDigit c then 'x' else c

instance {ε α : Type} [DecidableEq ε] [DecidableEq α] : DecidableEq (Except ε α) :=
  fun x y =>
    match x, y with
    | .ok a, .ok b =>
      if h : a = b then .isTrue (by rw [h]) else .isFalse (fun hc => h (Except.ok.inj hc))
    | .error a, .error b =>
      if h : a = b then .isTrue (by rw [h]) else .isFalse (fun hc => h (Except.error.inj hc))
    | .ok _, .error _ => .isFalse (fun hc => Except.noConfusion hc)
    | .error _, .ok _ => .isFalse (fun hc => Except.noConfusion hc)

/-- The big-endian accumulation of the hexadecimal digits of a string
(`address <<= 4; address += int(character, 16)` over the scan of `_parse`,
non-hex characters contribute nothing). -/
def accumHex (s : List Char) : Nat :=
  s.foldl (fun a c => if isHexDigit c then a * 16 + hexVal c else a) 0

/-- Configuration data of a `HWAddress` subclass: the `size` class attribute
(bit width) and the `formats` class attribute (templates as char lists). -/
structure Kind where
  size : Nat
  formats : List (List Char)
  deriving DecidableEq, Repr

/-- The `OUI` class configuration. -/
def OUI : Kind :=
  ⟨24, ["xx-xx-xx".toList, "xx:xx:xx".toList, "xxxxxx".toList]⟩

/-- The `CDI32` class configuration. -/
def CDI32 : Kind :=
  ⟨32, ["xx-xx-xx-xx".toList, "xx:xx:xx:xx".toList, "xxxxxxxx".toList]⟩

/-- The `CDI40` class configuration. -/
def CDI40 : Kind :=
  ⟨40, ["xx-xx-xx-xx-xx".toList, "xx:xx:xx:xx:xx".toList, "xxxxxxxxxx".toList]⟩

/-- The `EUI48` class configuration (also inherited unchanged by `MAC`). -/
def EUI48 : Kind :=
  ⟨48, ["xx-xx-xx-xx-xx-xx".toList, "xx:xx:xx:xx:xx:xx".toList,
        "xxxx.xxxx.xxxx".toList, "xxxxxxxxxxxx".toList]⟩

/-- The `EUI60` class configuration. -/
def EUI60 : Kind :=
  ⟨60, ["x.x.x.x.x.x.x.x.x.x.x.x.x.x.x".toList, "xx-xx-xx.x.x.x.x.x.x.x.x.x".toList,
        "xxxxxxxxxxxxxxx".toList]⟩

/-- The `EUI64` class configuration. -/
def EUI64 : Kind :=
  ⟨64, ["xx-xx-xx-xx-xx-xx-xx-xx".toList, "xx:xx:xx:xx:xx:xx:xx:xx".toList,
        "xxxx.xxxx.xxxx.xxxx".toList, "xxxxxxxxxxxxxxxx".toList]⟩

/-- Error taxonomy of the spec. The source raises `ValueError` at each of
these sites; the spec names the integer-range failure `RangeError`, the
byte-length failure `LengthError` and the text-match failure `FormatError`. -/
inductive HWError where
  | rangeError
  | lengthError
  | formatError
  deriving DecidableEq, Repr

/-- A constructed hardware-address value: its kind and the stored
`_address` attribute. -/
structure HW where
  kind : Kind
  address : Nat
  deriving DecidableEq, Repr

/-- The `int` branch of `HWAddress.__init__`: reject an address at or above
`1 << size` and a negative address, otherwise store it unchanged. -/
def fromInteger (K : Kind) (n : Int) : Except HWError HW :=
  if n ≥ (2 : Int) ^ K.size then .error .rangeError
  else if n < 0 then .error .rangeError
  else .ok ⟨K, n.toNat⟩

/-- `HWAddress.__int__`: the raw stored integer. -/
def toInt (a : HW) : Nat := a.address

/-- `(self.size + 7) >> 3`, the byte length of a kind. -/
def byteLen (K : Kind) : Nat := (K.size + 7) >>> 3

/-- `(8 - self.size) & 7` (Python semantics, always non-negative). -/
def off8 (K : Kind) : Nat := (8 - K.size % 8) % 8

/-- `(4 - size) & 3` (Python semantics, always non-negative), the nibble
padding shift used by `__str__` and `_parse`. -/
def off4 (size : Nat) : Nat := (4 - size % 4) % 4

/-- Big-endian base-256 digits (most significant first) of the low `len`
bytes of `n`; models `(value).to_bytes(len, 'big')` for `value < 256^len`. -/
def natToBEBytes : Nat → Nat → List Nat
  | 0, _ => []
  | l + 1, n => (n / 256 ^ l % 256) :: natToBEBytes l n

/-- `int.from_bytes(address, 'big')`. -/
def beBytesToNat (bs : List Nat) : Nat :=
  bs.foldl (fun a b => a * 256 + b) 0

/-- `HWAddress.__bytes__`: left-shift the stored integer into byte alignment
and serialize big-endian over `byteLen` bytes. -/
def toBytes (a : HW) : List Nat :=
  natToBEBytes (byteLen a.kind) (a.address <<< off8 a.kind)

/-- The `bytes` branch of `HWAddress.__init__`: check the exact byte length,
read big-endian, and drop the low padding bits. -/
def fromBytes (K : Kind) (bs : List Nat) : Except HWError HW :=
  if bs.length ≠ byteLen K then .error .lengthError
  else .ok ⟨K, beBytesToNat bs >>> off8 K⟩

/-- The loop of `HWAddress.__str__`, walking the reversed template and
consuming one nibble of the shifted value per wildcard. -/
def renderAux : List Char → Nat → List Char
  | [], _ => []
  | c :: rest, v =>
    if c = 'x' then hexDigitChar (v % 16) :: renderAux rest (v / 16)
    else c :: renderAux rest v

/-- `HWAddress.__str__` generalized over the template (the source renders
with `self.formats[0]`; the test suite renders each format by overriding
`formats`): shift the address by the nibble padding, then emit one hex digit
per wildcard right-to-left and every literal as-is. -/
def render (t : List Char) (size addr : Nat) : List Char :=
  (renderAux t.reverse (addr <<< off4 size)).reverse

/-- `candidates.setdefault(format, cls)`: insert the binding only when the
template is not yet a key (first-candidate-wins for identical templates). -/
def setdefault (f : List Char) (cls : Kind) (m : List (List Char × Kind)) :
    List (List Char × Kind) :=
  if m.any (fun p => p.1 == f) then m else m ++ [(f, cls)]

/-- The inner loop of candidate collection in `_parse`: walk one class's
`formats`, keeping the templates whose length equals the input length. -/
def collectFormats (cls : Kind) (L : Nat) :
    List (List Char) → List (List Char × Kind) → List (List Char × Kind)
  | [], m => m
  | f :: fs, m =>
    collectFormats cls L fs (if f.length == L then setdefault f cls m else m)

/-- The outer loop of candidate collection in `_parse`, over the classes. -/
def collectCands (L : Nat) : List Kind → List (List Char × Kind) →
    List (List Char × Kind)
  | [], m => m
  | cls :: rest, m => collectCands L rest (collectFormats cls L cls.formats m)

/-- Python's lexicographic `<` on strings. -/
def lexLt : List Char → List Char → Bool
  | [], [] => false
  | [], _ :: _ => true
  | _ :: _, [] => false
  | a :: as, b :: bs => a < b || (a == b && lexLt as bs)

/-- Python's lexicographic `≤` on strings. -/
def lexLe (s t : List Char) : Bool := lexLt s t || s == t

/-- The comparison used by `sorted(candidates.items())`. The collected
templates are distinct keys, so the tuple comparison never reaches the
second component and is determined by the template strings. -/
def candLe (p q : List Char × Kind) : Prop := lexLe p.1 q.1 = true

instance : DecidableRel candLe := fun p q => instDecidableEqBool (lexLe p.1 q.1) true

/-- `sorted(candidates.items())`. -/
def sortCands (m : List (List Char × Kind)) : List (List Char × Kind) :=
  m.insertionSort candLe

/-- `candidates[j]`'s template (the indices used stay in range). -/
def tplAt (cands : List (List Char × Kind)) (j : Nat) : List Char :=
  (cands.getD j ([], ⟨0, []⟩)).1

/-- `template[i]` (the indices used stay in range). -/
def chAt (t : List Char) (i : Nat) : Char := t.getD i '?'

/-- The first `while` loop of the `_parse` scan:
`while start < end and candidates[start][0][index] < character: start += 1`.
The fuel argument is `stop - start`, so `fuel > 0` is exactly the loop's
bound check `start < end` and the result is the final `start`. -/
def advanceStart (cands : List (List Char × Kind)) (i : Nat) (c : Char) :
    Nat → Nat → Nat
  | 0, start => start
  | fuel + 1, start =>
    if chAt (tplAt cands start) i < c then advanceStart cands i c fuel (start + 1)
    else start

/-- The second `while` loop of the `_parse` scan:
`while start < end and candidates[end - 1][0][index] > character: end -= 1`.
The fuel argument is `stop - start`, so `fuel > 0` is exactly the loop's
bound check `start < end` and the result is the final `end`. -/
def shrinkEnd (cands : List (List Char × Kind)) (i : Nat) (c : Char) :
    Nat → Nat → Nat
  | 0, stop => stop
  | fuel + 1, stop =>
    if c < chAt (tplAt cands (stop - 1)) i then shrinkEnd cands i c fuel (stop - 1)
    else stop

/-- The `for index in range(length)` scan of `_parse`: normalize the
character (accumulating hex digits), narrow the window from both ends, and
fail as soon as the window is empty. Returns the accumulated address and the
final `start` index. -/
def scanLoop (cands : List (List Char × Kind)) :
    List Char → Nat → Nat → Nat → Nat → Option (Nat × Nat)
  | [], _, addr, start, _ => some (addr, start)
  | ch :: rest, i, addr, start, stop =>
    let addr := if isHexDigit ch then addr * 16 + hexVal ch else addr
    let c := normChar ch
    let start := advanceStart cands i c (stop - start) start
    let stop := shrinkEnd cands i c (stop - start) stop
    if start ≥ stop then none else scanLoop cands rest (i + 1) addr start stop

/-- The module-level `_parse` function: reject empty input, collect and sort
the candidate templates of matching length, run the narrowing scan, and
right-shift the accumulated address by the matched kind's nibble padding.
(`candidates[start]` is always in range on the success path, so the `none`
fallback of the lookup is never taken.) -/
def parseCore (input : List Char) (classes : List Kind) : Option (Nat × Kind) :=
  if input.length < 1 then none
  else
    let cands := sortCands (collectCands input.length classes [])
    match scanLoop cands input 0 0 0 cands.length with
    | none => none
    | some (addr, start) =>
      match cands.get? start with
      | none => none
      | some (_, cls) => some (addr >>> off4 cls.size, cls)

/-- The `str` branch of `HWAddress.__init__`: parse with the value's own
class as sole candidate and store the returned address. -/
def fromText (K : Kind) (s : List Char) : Except HWError HW :=
  match parseCore s [K] with
  | none => .error .formatError
  | some (addr, _) => .ok ⟨K, addr⟩

/-- The public `parse` function: `None` when no classes are given, otherwise
run `_parse` and construct a value of the matched class from the returned
integer (the `int` branch of `__init__`). -/
def parse (s : List Char) (classes : List Kind) : Except HWError (Option HW) :=
  match classes with
  | [] => .ok none
  | _ :: _ =>
    match parseCore s classes with
    | none => .error .formatError
    | some (addr, cls) => (fromInteger cls addr).map some

/-- The claim's naive structural matcher: the input character at every
wildcard position must be a hexadecimal digit, and must equal the template
character at every literal position. -/
def structMatches (t s : List Char) : Bool :=
  t.length == s.length &&
    (t.zip s).all fun p => if p.1 == 'x' then isHexDigit p.2 else p.1 == p.2

/-- The corrected structural matcher realized by the code: at a wildcard
position the input character may also be the literal wildcard symbol `x`
itself (which is not a hexadecimal digit, so the normalization keeps it and
it compares equal to the template's wildcard). -/
def structMatchesX (t s : List Char) : Bool :=
  t.length == s.length &&
    (t.zip s).all fun p =>
      if p.1 == 'x' then isHexDigit p.2 || p.2 == 'x' else p.1 == p.2

/-- The naive reference matcher, parameterized by the structural matcher:
collect and sort exactly as `_parse` does, pick the first (lexicographically
smallest) structurally matching pair, and shift the accumulated hex digits
by the matched kind's nibble padding. -/
def naiveParse (structM : List Char → List Char → Bool) (input : List Char)
    (classes : List Kind) : Option (Nat × Kind) :=
  if input.length < 1 then none
  else
    match (sortCands (collectCands input.length classes [])).find?
        (fun p => structM p.1 input) with
    | none => none
    | some (_, cls) => some (accumHex input >>> off4 cls.size, cls)

example : parseCore ("01-23-45-67-89-AB".toList) [EUI48] = some (0x0123456789AB, EUI48) := by
  decide
example : parseCore ("01:23:45:67:89:ab".toList) [EUI48] = some (0x0123456789AB, EUI48) := by
  decide
example : parseCore ("xx-xx-xx".toList) [OUI] = some (0, OUI) := by decide
example : naiveParse structMatches ("xx-xx-xx".toList) [OUI] = none := by decide
example : naiveParse structMatchesX ("xx-xx-xx".toList) [OUI] = some (0, OUI) := by decide
example : parseCore ("not-a-mac".toList) [EUI48] = none := by decide
example : parse ("z".toList) [] = .ok none := by decide
example : parse ("z".toList) [OUI] = .error .formatError := by decide
example : fromText EUI48 ("0123.4567.89ab".toList) = .ok ⟨EUI48, 0x0123456789AB⟩ := by decide

/-- The concrete classes of the library's catalog (the instantiable
`HWAddress` subclasses). Runtime class identity matters to `__eq__`'s
`isinstance` check, so it is modelled separately from the `Kind` data. -/
inductive Cls where
  | oui
  | cdi32
  | cdi40
  | eui48
  | mac
  | eui60
  | eui64
  deriving DecidableEq, Repr

/-- The configuration data each concrete class carries (`MAC` inherits
`size` and `formats` unchanged from `EUI48`). -/
def clsKind : Cls → Kind
  | .oui => OUI
  | .cdi32 => CDI32
  | .cdi40 => CDI40
  | .eui48 => EUI48
  | .mac => EUI48
  | .eui60 => EUI60
  | .eui64 => EUI64

/-- `issubclass` restricted to the catalog's concrete classes: reflexive,
and `MAC` is a subclass of `EUI48`; no other strict subclass relation holds
between instantiable classes. -/
def isSubclass (sub sup : Cls) : Bool :=
  sub == sup || (sub == .mac && sup == .eui48)

/-- A constructed value of a concrete catalog class. -/
structure ClsVal where
  cls : Cls
  address : Nat
  deriving DecidableEq, Repr

/-- `HWAddress.__eq__`: `isinstance(other, type(self))`, then equal `size`,
then equal stored addresses. -/
def eqHW (a b : ClsVal) : Bool :=
  if !(isSubclass b.cls a.cls) || (clsKind a.cls).size != (clsKind b.cls).size then false
  else a.address == b.address

/-- `HWAddress.__ne__`: `isinstance(other, type(self))`, then equal `size`,
then unequal stored addresses. -/
def neHW (a b : ClsVal) : Bool :=
  if !(isSubclass b.cls a.cls) || (clsKind a.cls).size != (clsKind b.cls).size then true
  else a.address != b.address

/-- `_aligned_address_integers`: left-align both stored integers onto the
larger of the two sizes; the wider side is unchanged. -/
def alignedAddressIntegers (a b : HW) : Nat × Nat :=
  if a.kind.size > b.kind.size then
    (a.address, b.address <<< (a.kind.size - b.kind.size))
  else
    (a.address <<< (b.kind.size - a.kind.size), b.address)

/-- `HWAddress.__lt__` restricted to hardware-address operands (the
`NotImplemented` branch for foreign types is outside the model). -/
def hwLt (a b : HW) : Bool :=
  let p := alignedAddressIntegers a b
  decide (p.1 < p.2) || (decide (p.1 = p.2) && decide (a.kind.size < b.kind.size))

/-- `HWAddress.__le__` restricted to hardware-address operands. -/
def hwLe (a b : HW) : Bool :=
  let p := alignedAddressIntegers a b
  decide (p.1 < p.2) || (decide (p.1 = p.2) && decide (a.kind.size ≤ b.kind.size))

/-- `HWAddress.__gt__` restricted to hardware-address operands. -/
def hwGt (a b : HW) : Bool :=
  let p := alignedAddressIntegers a b
  decide (p.1 > p.2) || (decide (p.1 = p.2) && decide (a.kind.size > b.kind.size))

/-- `HWAddress.__ge__` restricted to hardware-address operands. -/
def hwGe (a b : HW) : Bool :=
  let p := alignedAddressIntegers a b
  decide (p.1 > p.2) || (decide (p.1 = p.2) && decide (a.kind.size ≥ b.kind.size))

/-- A value is valid when its stored integer fits in its kind's bit width
(the invariant every constructor establishes). -/
def validHW (a : HW) : Prop := a.address < 2 ^ a.kind.size

instance (a : HW) : Decidable (validHW a) := Nat.decLt _ _

/-- The big-endian bit string of the low `len` bits of `n` (most significant
first), as used by the spec's bit-string ordering description and by the
test suite's `_bits` helper. -/
def natToBEBits : Nat → Nat → List Bool
  | 0, _ => []
  | l + 1, n => decide (n / 2 ^ l % 2 = 1) :: natToBEBits l n

/-- Lexicographic strict comparison of bit strings (`false < true`). -/
def lexLtBool : List Bool → List Bool → Bool
  | [], [] => false
  | [], _ :: _ => true
  | _ :: _, [] => false
  | a :: as, b :: bs => (!a && b) || (a == b && lexLtBool as bs)

/-- The bit string of a value left-padded (on the right, i.e. left-aligned)
with zero bits up to width `m`. -/
def paddedBits (a : HW) (m : Nat) : List Bool :=
  natToBEBits a.kind.size a.address ++ List.replicate (m - a.kind.size) false

example : eqHW ⟨.eui48, 7⟩ ⟨.mac, 7⟩ = true := by decide
example : eqHW ⟨.mac, 7⟩ ⟨.eui48, 7⟩ = false := by decide
example : hwLt ⟨OUI, 0x010203⟩ ⟨EUI48, 0x010203040506⟩ = true := by decide
example : hwLt ⟨OUI, 0x010203⟩ ⟨OUI, 0x010204⟩ = true := by decide
example : natToBEBits 4 10 = [true, false, true, false] := by decide
example : lexLtBool [false, true] [true, false] = true := by decide

example : fromInteger OUI 5 = .ok ⟨OUI, 5⟩ := by decide
example : fromInteger OUI (-1) = .error .rangeError := by decide
example : toBytes ⟨OUI, 0x010203⟩ = [1, 2, 3] := by decide
example : fromBytes OUI [1, 2, 3] = .ok ⟨OUI, 0x010203⟩ := by decide
example : byteLen EUI60 = 8 := by decide
example : fromBytes EUI60 [0, 0, 0, 0, 0, 0, 0, 15] = .ok ⟨EUI60, 0⟩ := by decide
example : render ("xx-xx-xx".toList) 24 0x0123AB = "01-23-AB".toList := by decide

/-- The least index of an element satisfying the predicate. -/
def findFirstIdx (P : α → Bool) : List α → Option Nat
  | [] => none
  | a :: l => if P a then some 0 else (findFirstIdx P l).map (· + 1)

/-- The loop invariant of the `_parse` scan: the window `[start, stop)`
holds exactly the candidates whose template agrees with the normalized
input on the first `i` positions. -/
def windowInv (cands : List (List Char × Kind)) (norm : List Char)
    (i start stop : Nat) : Prop :=
  start ≤ stop ∧ stop ≤ cands.length ∧
    ∀ j, j < cands.length →
      ((start ≤ j ∧ j < stop) ↔ (tplAt cands j).take i = norm.take i)

/-- The number of wildcard symbols of a template. -/
def countX : List Char → Nat
  | [] => 0
  | c :: r => (if c = 'x' then 1 else 0) + countX r

/-- The rendering loop of `__str__` on an already-shifted value (the shift
by the nibble padding is applied by `render`). -/
def renderCore (t : List Char) (v : Nat) : List Char :=
  (renderAux t.reverse v).reverse

lemma natToBEBytes_length (l n : Nat) : (natToBEBytes l n).length = l := by
  induction l generalizing n with
  | zero => rfl
  | succ l ih => simp [natToBEBytes, ih]

lemma mod_pow_succ_decomp (b l n : Nat) :
    n % b ^ (l + 1) = n / b ^ l % b * b ^ l + n % b ^ l := by
  rw [pow_succ, Nat.mod_mul]
  ring

lemma foldl_natToBEBytes (l n a : Nat) :
    (natToBEBytes l n).foldl (fun x b => x * 256 + b) a = a * 256 ^ l + n % 256 ^ l := by
  induction l generalizing a with
  | zero => simp [natToBEBytes, beBytesToNat, Nat.mod_one]
  | succ l ih =>
    rw [natToBEBytes, List.foldl_cons, ih, mod_pow_succ_decomp 256 l n]
    ring

lemma beBytesToNat_natToBEBytes (l n : Nat) :
    beBytesToNat (natToBEBytes l n) = n % 256 ^ l := by
  rw [beBytesToNat, foldl_natToBEBytes]
  simp

lemma size_add_off8 (K : Kind) : K.size + off8 K = 8 * byteLen K := by
  have h : byteLen K = (K.size + 7) / 8 := by
    rw [byteLen, Nat.shiftRight_eq_div_pow]
  rw [h, off8]
  omega

lemma shiftLeft_shiftRight_cancel (n k : Nat) : n <<< k >>> k = n := by
  rw [Nat.shiftLeft_eq, Nat.shiftRight_eq_div_pow]
  exact Nat.mul_div_cancel _ (pow_pos (by norm_num) _)

/-- Claim C5: for every kind `K` and every integer `n` with
`0 ≤ n < 2^K.size`, constructing a value of kind `K` from `n` succeeds and
converting it back to an integer yields `n`. -/
theorem claimC5_theorem (K : Kind) (n : Nat) (h : n < 2 ^ K.size) :
    fromInteger K (n : Int) = .ok ⟨K, n⟩ ∧ toInt ⟨K, n⟩ = n := by
  have hcast : (n : Int) < (2 : Int) ^ K.size := by exact_mod_cast h
  refine ⟨?_, rfl⟩
  rw [fromInteger, if_neg (not_le.mpr hcast), if_neg (not_lt.mpr (Int.natCast_nonneg n))]
  simp

/-- Witness for C5 at `K = OUI`, `n = 5`. -/
theorem claimC5_witness :
    fromInteger OUI ((5 : Nat) : Int) = .ok ⟨OUI, 5⟩ ∧ toInt ⟨OUI, 5⟩ = 5 :=
  claimC5_theorem OUI 5 (by decide)

/-- Claim C7: serializing a valid value of kind `K` to its big-endian byte
string and reconstructing a value of kind `K` from those bytes restores the
same integer. -/
theorem claimC7_theorem (K : Kind) (n : Nat) (h : n < 2 ^ K.size) :
    fromBytes K (toBytes ⟨K, n⟩) = .ok ⟨K, n⟩ ∧ toInt ⟨K, n⟩ = n := by
  refine ⟨?_, rfl⟩
  have hlen : (toBytes ⟨K, n⟩).length = byteLen K := natToBEBytes_length _ _
  have hlt : n <<< off8 K < 256 ^ byteLen K := by
    rw [Nat.shiftLeft_eq]
    calc n * 2 ^ off8 K < 2 ^ K.size * 2 ^ off8 K :=
          Nat.mul_lt_mul_of_pos_right h (pow_pos (by norm_num) _)
      _ = 2 ^ (K.size + off8 K) := (pow_add 2 _ _).symm
      _ = 2 ^ (8 * byteLen K) := by rw [size_add_off8]
      _ = 256 ^ byteLen K := by rw [pow_mul]; norm_num
  have hval : beBytesToNat (toBytes ⟨K, n⟩) >>> off8 K = n := by
    show beBytesToNat (natToBEBytes (byteLen K) (n <<< off8 K)) >>> off8 K = n
    rw [beBytesToNat_natToBEBytes, Nat.mod_eq_of_lt hlt, shiftLeft_shiftRight_cancel]
  rw [fromBytes, if_neg (by simp [hlen]), hval]

/-- Witness for C7 at `K = EUI60`, `n = 0xABCDE0123456789`. -/
theorem claimC7_witness :
    fromBytes EUI60 (toBytes ⟨EUI60, 0xABCDE0123456789⟩) = .ok ⟨EUI60, 0xABCDE0123456789⟩ ∧
      toInt ⟨EUI60, 0xABCDE0123456789⟩ = 0xABCDE0123456789 :=
  claimC7_theorem EUI60 0xABCDE0123456789 (by decide)

/-- Claim C8: the from-integer constructor fails with `RangeError` exactly
when the integer is negative or at least `2^K.size`, and otherwise succeeds
storing the integer unchanged. -/
theorem claimC8_theorem (K : Kind) (n : Int) :
    (fromInteger K n = .error .rangeError ↔ n < 0 ∨ (2 : Int) ^ K.size ≤ n) ∧
      (0 ≤ n → n < (2 : Int) ^ K.size → fromInteger K n = .ok ⟨K, n.toNat⟩) := by
  constructor
  · rw [fromInteger]
    split_ifs with h1 h2
    · simp only [ge_iff_le] at h1
      simp [h1]
    · simp [h2]
    · simp only [ge_iff_le, not_le] at h1
      simp only [not_lt] at h2
      simp [not_lt.mpr h1, not_le.mpr ?_]
      omega
  · intro h1 h2
    rw [fromInteger, if_neg (not_le.mpr h2), if_neg (not_lt.mpr h1)]

/-- Witness for C8 at `K = EUI48`, `n = 1 <<< 48` (spec scenario 6) and at
`n = 3`. -/
theorem claimC8_witness :
    fromInteger EUI48 ((2 : Int) ^ 48) = .error .rangeError ∧
      fromInteger EUI48 (3 : Int) = .ok ⟨EUI48, (3 : Int).toNat⟩ :=
  ⟨(claimC8_theorem EUI48 ((2 : Int) ^ 48)).1.mpr (Or.inr (by norm_num [EUI48])),
    (claimC8_theorem EUI48 3).2 (by norm_num) (by norm_num [EUI48])⟩

/-- Claim C9: the multi-kind `parse` with zero candidate kinds produces the
sentinel absence `none` for every input rather than raising, while `parse`
with one or more candidates that all fail to match fails with
`FormatError`. -/
theorem claimC9_theorem :
    (∀ s : List Char, parse s [] = .ok none) ∧
      ∀ (s : List Char) (K : Kind) (classes : List Kind),
        parseCore s (K :: classes) = none →
          parse s (K :: classes) = .error .formatError := by
  refine ⟨fun s => rfl, fun s K classes h => ?_⟩
  rw [parse, h]

/-- Witness for C9: no candidates on one hand, one never-matching candidate
on the other. -/
theorem claimC9_witness :
    parse ("z".toList) [] = .ok none ∧
      parse ("z".toList) [OUI] = .error .formatError :=
  ⟨claimC9_theorem.1 _, claimC9_theorem.2 ("z".toList) OUI [] (by decide)⟩

/-- Claim C10: for a kind whose bit width is not a multiple of 8, the
from-bytes constructor accepts every byte string of the correct length
(storing the value with the low padding bits discarded), two correct-length
byte strings agreeing above the low `8 - size % 8` padding bits construct
equal values, and for `EUI60` two distinct byte strings construct the same
value, so from-bytes is not injective on correct-length inputs. -/
theorem claimC10_theorem :
    (∀ (K : Kind) (bs : List Nat), bs.length = byteLen K →
        fromBytes K bs = .ok ⟨K, beBytesToNat bs >>> off8 K⟩) ∧
      (∀ (K : Kind) (b1 b2 : List Nat), K.size % 8 ≠ 0 →
        b1.length = byteLen K → b2.length = byteLen K →
        beBytesToNat b1 / 2 ^ (8 - K.size % 8) = beBytesToNat b2 / 2 ^ (8 - K.size % 8) →
        fromBytes K b1 = fromBytes K b2) ∧
      fromBytes EUI60 [0, 0, 0, 0, 0, 0, 0, 0] = fromBytes EUI60 [0, 0, 0, 0, 0, 0, 0, 15] ∧
      ([0, 0, 0, 0, 0, 0, 0, 0] : List Nat) ≠ [0, 0, 0, 0, 0, 0, 0, 15] := by
  refine ⟨fun K bs h => by rw [fromBytes, if_neg (by simp [h])],
    fun K b1 b2 hK h1 h2 hq => ?_, by decide, by decide⟩
  have hoff : off8 K = 8 - K.size % 8 := by
    rw [off8]
    omega
  rw [fromBytes, fromBytes, if_neg (by simp [h1]), if_neg (by simp [h2])]
  rw [Nat.shiftRight_eq_div_pow, Nat.shiftRight_eq_div_pow, hoff, hq]

/-- Witness for C10: `EUI60` byte strings differing only in the low 4
padding bits of the last byte. -/
theorem claimC10_witness :
    fromBytes EUI60 [1, 2, 3, 4, 5, 6, 7, 8] =
        .ok ⟨EUI60, beBytesToNat [1, 2, 3, 4, 5, 6, 7, 8] >>> off8 EUI60⟩ ∧
      fromBytes EUI60 [1, 2, 3, 4, 5, 6, 7, 0] = fromBytes EUI60 [1, 2, 3, 4, 5, 6, 7, 15] :=
  ⟨claimC10_theorem.1 EUI60 [1, 2, 3, 4, 5, 6, 7, 8] (by decide),
    claimC10_theorem.2.1 EUI60 [1, 2, 3, 4, 5, 6, 7, 0] [1, 2, 3, 4, 5, 6, 7, 15]
      (by decide) (by decide) (by decide) (by decide)⟩

/-- Claim C1 (counterexample): `MAC` and `EUI48` values with equal size and
equal raw integers are not reported equal by `__eq__` when the `MAC` value
is on the left, because `EUI48` is not a subclass of `MAC`; so equality is
not determined by bit width and raw integer alone. -/
theorem claimC1_counterexample :
    (clsKind Cls.mac).size = (clsKind Cls.eui48).size ∧
      (ClsVal.mk .mac 0).address = (ClsVal.mk .eui48 0).address ∧
      eqHW ⟨.mac, 0⟩ ⟨.eui48, 0⟩ = false := by
  decide

/-- Claim C1 (amended): `__eq__` returns true iff the right operand's class
is the left operand's class or a subclass of it, the sizes are equal, and
the raw integers are equal; `__ne__` is pointwise the negation of
`__eq__`. -/
theorem claimC1_theorem (a b : ClsVal) :
    (eqHW a b = true ↔
        isSubclass b.cls a.cls = true ∧
          (clsKind a.cls).size = (clsKind b.cls).size ∧ a.address = b.address) ∧
      neHW a b = !eqHW a b := by
  rw [eqHW, neHW]
  cases hs : isSubclass b.cls a.cls with
  | false => simp [hs]
  | true =>
    by_cases h2 : (clsKind a.cls).size = (clsKind b.cls).size
    · simp [hs, h2, bne]
    · simp [hs, h2]

lemma two_pow_pos (l : Nat) : 0 < 2 ^ l := pow_pos (by norm_num) l

lemma lexLtBool_bits (l : Nat) : ∀ x y : Nat,
    (lexLtBool (natToBEBits l x) (natToBEBits l y) = true ↔ x % 2 ^ l < y % 2 ^ l) := by
  induction l with
  | zero => simp [natToBEBits, lexLtBool, Nat.mod_one]
  | succ l ih =>
    intro x y
    have hx2 : x % 2 ^ l < 2 ^ l := Nat.mod_lt _ (two_pow_pos l)
    have hy2 : y % 2 ^ l < 2 ^ l := Nat.mod_lt _ (two_pow_pos l)
    rw [mod_pow_succ_decomp 2 l x, mod_pow_succ_decomp 2 l y]
    rcases Nat.mod_two_eq_zero_or_one (x / 2 ^ l) with hx | hx <;>
      rcases Nat.mod_two_eq_zero_or_one (y / 2 ^ l) with hy | hy <;>
      simp [natToBEBits, lexLtBool, hx, hy, ih x y] <;> omega

lemma natToBEBits_inj_mod (l : Nat) : ∀ x y : Nat,
    (natToBEBits l x = natToBEBits l y ↔ x % 2 ^ l = y % 2 ^ l) := by
  induction l with
  | zero => simp [natToBEBits, Nat.mod_one]
  | succ l ih =>
    intro x y
    have hx2 : x % 2 ^ l < 2 ^ l := Nat.mod_lt _ (two_pow_pos l)
    have hy2 : y % 2 ^ l < 2 ^ l := Nat.mod_lt _ (two_pow_pos l)
    rw [mod_pow_succ_decomp 2 l x, mod_pow_succ_decomp 2 l y]
    rcases Nat.mod_two_eq_zero_or_one (x / 2 ^ l) with hx | hx <;>
      rcases Nat.mod_two_eq_zero_or_one (y / 2 ^ l) with hy | hy <;>
      simp [natToBEBits, hx, hy, ih x y] <;> omega

lemma natToBEBits_mul_base (k : Nat) : ∀ x : Nat,
    natToBEBits k (x * 2 ^ k) = List.replicate k false := by
  induction k with
  | zero => intro x; rfl
  | succ k ih =>
    intro x
    have hdiv : x * 2 ^ (k + 1) / 2 ^ k = x * 2 := by
      rw [pow_succ]
      rw [show x * (2 ^ k * 2) = x * 2 * 2 ^ k by ring]
      exact Nat.mul_div_cancel _ (two_pow_pos k)
    have htail : natToBEBits k (x * 2 ^ (k + 1)) = List.replicate k false := by
      rw [show x * 2 ^ (k + 1) = x * 2 * 2 ^ k by rw [pow_succ]; ring]
      exact ih (x * 2)
    rw [natToBEBits, htail, hdiv, List.replicate_succ]
    simp [Nat.mul_mod_left]

lemma natToBEBits_shift (s : Nat) : ∀ k x : Nat,
    natToBEBits (s + k) (x * 2 ^ k) = natToBEBits s x ++ List.replicate k false := by
  induction s with
  | zero => intro k x; simpa using natToBEBits_mul_base k x
  | succ s ih =>
    intro k x
    have hdiv : x * 2 ^ k / 2 ^ (s + k) = x / 2 ^ s := by
      rw [pow_add, show 2 ^ s * 2 ^ k = 2 ^ k * 2 ^ s by ring, ← Nat.div_div_eq_div_mul]
      rw [Nat.mul_div_cancel _ (two_pow_pos k)]
    rw [show s + 1 + k = (s + k) + 1 by omega, natToBEBits, hdiv, ih k x, natToBEBits]
    rfl

lemma aligned_eq (a b : HW) :
    alignedAddressIntegers a b =
      (a.address <<< (max a.kind.size b.kind.size - a.kind.size),
        b.address <<< (max a.kind.size b.kind.size - b.kind.size)) := by
  rw [alignedAddressIntegers]
  split_ifs with h
  · have h1 : max a.kind.size b.kind.size = a.kind.size := max_eq_left (le_of_lt h)
    rw [h1, Nat.sub_self, Nat.shiftLeft_zero]
  · have h1 : max a.kind.size b.kind.size = b.kind.size := max_eq_right (not_lt.mp h)
    rw [h1, Nat.sub_self, Nat.shiftLeft_zero]

lemma aligned_fst_lt (a b : HW) (ha : validHW a) :
    (alignedAddressIntegers a b).1 < 2 ^ max a.kind.size b.kind.size := by
  rw [aligned_eq]
  dsimp only
  rw [Nat.shiftLeft_eq]
  calc a.address * 2 ^ (max a.kind.size b.kind.size - a.kind.size)
      < 2 ^ a.kind.size * 2 ^ (max a.kind.size b.kind.size - a.kind.size) :=
        Nat.mul_lt_mul_of_pos_right ha (two_pow_pos _)
    _ = 2 ^ max a.kind.size b.kind.size := by
        rw [← pow_add]
        congr 1
        omega

lemma aligned_snd_lt (a b : HW) (hb : validHW b) :
    (alignedAddressIntegers a b).2 < 2 ^ max a.kind.size b.kind.size := by
  rw [aligned_eq]
  dsimp only
  rw [Nat.shiftLeft_eq]
  calc b.address * 2 ^ (max a.kind.size b.kind.size - b.kind.size)
      < 2 ^ b.kind.size * 2 ^ (max a.kind.size b.kind.size - b.kind.size) :=
        Nat.mul_lt_mul_of_pos_right hb (two_pow_pos _)
    _ = 2 ^ max a.kind.size b.kind.size := by
        rw [← pow_add]
        congr 1
        omega

lemma bits_append_replicate (s m x : Nat) (h : s ≤ m) :
    natToBEBits s x ++ List.replicate (m - s) false = natToBEBits m (x * 2 ^ (m - s)) := by
  obtain ⟨k, rfl⟩ : ∃ k, m = s + k := ⟨m - s, by omega⟩
  rw [Nat.add_sub_cancel_left, natToBEBits_shift]

lemma paddedBits_fst (a b : HW) :
    paddedBits a (max a.kind.size b.kind.size) =
      natToBEBits (max a.kind.size b.kind.size) (alignedAddressIntegers a b).1 := by
  rw [paddedBits, aligned_eq]
  dsimp only
  rw [Nat.shiftLeft_eq]
  exact bits_append_replicate _ _ _ (le_max_left _ _)

lemma paddedBits_snd (a b : HW) :
    paddedBits b (max a.kind.size b.kind.size) =
      natToBEBits (max a.kind.size b.kind.size) (alignedAddressIntegers a b).2 := by
  rw [paddedBits, aligned_eq]
  dsimp only
  rw [Nat.shiftLeft_eq]
  exact bits_append_replicate _ _ _ (le_max_right _ _)

/-- Claim C2: `a < b` iff the left-aligned (right-zero-padded to the common
width `max(a.bits, b.bits)`) bit string of `a` is lexicographically smaller
than that of `b`, with ties broken by `a.bits < b.bits`; the alignment
leaves the wider value's integer unchanged. -/
theorem claimC2_theorem (a b : HW) (ha : validHW a) (hb : validHW b) :
    (hwLt a b = true ↔
        (lexLtBool (paddedBits a (max a.kind.size b.kind.size))
            (paddedBits b (max a.kind.size b.kind.size)) = true ∨
          (paddedBits a (max a.kind.size b.kind.size) =
              paddedBits b (max a.kind.size b.kind.size) ∧
            a.kind.size < b.kind.size))) ∧
      (b.kind.size ≤ a.kind.size → (alignedAddressIntegers a b).1 = a.address) ∧
      (a.kind.size ≤ b.kind.size → (alignedAddressIntegers a b).2 = b.address) := by
  refine ⟨?_, ?_, ?_⟩
  · have h1 := aligned_fst_lt a b ha
    have h2 := aligned_snd_lt a b hb
    rw [paddedBits_fst, paddedBits_snd, lexLtBool_bits, natToBEBits_inj_mod]
    rw [Nat.mod_eq_of_lt h1, Nat.mod_eq_of_lt h2, hwLt]
    simp only [Bool.or_eq_true, Bool.and_eq_true, decide_eq_true_eq]
  · intro h
    rw [aligned_eq]
    dsimp only
    rw [show max a.kind.size b.kind.size - a.kind.size = 0 by omega, Nat.shiftLeft_zero]
  · intro h
    rw [aligned_eq]
    dsimp only
    rw [show max a.kind.size b.kind.size - b.kind.size = 0 by omega, Nat.shiftLeft_zero]

/-- Witness for C2 at `a = OUI(01-02-03)`, `b = EUI48(01-02-03-04-05-06)`
(spec scenario 3). -/
theorem claimC2_witness :
    (hwLt ⟨OUI, 0x010203⟩ ⟨EUI48, 0x010203040506⟩ = true ↔
        (lexLtBool (paddedBits ⟨OUI, 0x010203⟩ (max (OUI).size (EUI48).size))
            (paddedBits ⟨EUI48, 0x010203040506⟩ (max (OUI).size (EUI48).size)) = true ∨
          (paddedBits ⟨OUI, 0x010203⟩ (max (OUI).size (EUI48).size) =
              paddedBits ⟨EUI48, 0x010203040506⟩ (max (OUI).size (EUI48).size) ∧
            (OUI).size < (EUI48).size))) ∧
      ((EUI48).size ≤ (OUI).size →
        (alignedAddressIntegers ⟨OUI, 0x010203⟩ ⟨EUI48, 0x010203040506⟩).1 = 0x010203) ∧
      ((OUI).size ≤ (EUI48).size →
        (alignedAddressIntegers ⟨OUI, 0x010203⟩ ⟨EUI48, 0x010203040506⟩).2 =
          0x010203040506) :=
  claimC2_theorem ⟨OUI, 0x010203⟩ ⟨EUI48, 0x010203040506⟩ (by decide) (by decide)

lemma bool_eq_of_iff {x y : Bool} (h : x = true ↔ y = true) : x = y := by
  cases x <;> cases y <;> simp_all

lemma max_le_add (a b : Nat) : max a b ≤ a + b := by
  rcases max_choice a b with h | h <;> omega

lemma aligned_lt_iff (a b : HW) :
    (alignedAddressIntegers a b).1 < (alignedAddressIntegers a b).2 ↔
      a.address * 2 ^ b.kind.size < b.address * 2 ^ a.kind.size := by
  have hm1 : a.kind.size ≤ max a.kind.size b.kind.size := le_max_left _ _
  have hm2 : b.kind.size ≤ max a.kind.size b.kind.size := le_max_right _ _
  have hm3 := max_le_add a.kind.size b.kind.size
  rw [aligned_eq]
  dsimp only
  rw [Nat.shiftLeft_eq, Nat.shiftLeft_eq]
  constructor
  · intro h
    have h' := Nat.mul_lt_mul_of_pos_right h
      (two_pow_pos (a.kind.size + b.kind.size - max a.kind.size b.kind.size))
    rw [mul_assoc, mul_assoc, ← pow_add, ← pow_add] at h'
    rw [show max a.kind.size b.kind.size - a.kind.size +
        (a.kind.size + b.kind.size - max a.kind.size b.kind.size) = b.kind.size by omega,
      show max a.kind.size b.kind.size - b.kind.size +
        (a.kind.size + b.kind.size - max a.kind.size b.kind.size) = a.kind.size by omega] at h'
    exact h'
  · intro h
    have h' := Nat.mul_lt_mul_of_pos_right h
      (two_pow_pos (max a.kind.size b.kind.size - a.kind.size +
        (max a.kind.size b.kind.size - b.kind.size)))
    rw [mul_assoc, mul_assoc, ← pow_add, ← pow_add] at h'
    rw [show b.kind.size + (max a.kind.size b.kind.size - a.kind.size +
        (max a.kind.size b.kind.size - b.kind.size)) =
        max a.kind.size b.kind.size - a.kind.size + max a.kind.size b.kind.size by omega,
      show a.kind.size + (max a.kind.size b.kind.size - a.kind.size +
        (max a.kind.size b.kind.size - b.kind.size)) =
        max a.kind.size b.kind.size - b.kind.size + max a.kind.size b.kind.size by omega] at h'
    rw [pow_add, pow_add, ← mul_assoc, ← mul_assoc] at h'
    exact lt_of_mul_lt_mul_right h' (Nat.zero_le _)

lemma aligned_eq_iff (a b : HW) :
    (alignedAddressIntegers a b).1 = (alignedAddressIntegers a b).2 ↔
      a.address * 2 ^ b.kind.size = b.address * 2 ^ a.kind.size := by
  have hm1 : a.kind.size ≤ max a.kind.size b.kind.size := le_max_left _ _
  have hm2 : b.kind.size ≤ max a.kind.size b.kind.size := le_max_right _ _
  have hm3 := max_le_add a.kind.size b.kind.size
  rw [aligned_eq]
  dsimp only
  rw [Nat.shiftLeft_eq, Nat.shiftLeft_eq]
  constructor
  · intro h
    have h' := congrArg
      (fun z => z * 2 ^ (a.kind.size + b.kind.size - max a.kind.size b.kind.size)) h
    dsimp only at h'
    rw [mul_assoc, mul_assoc, ← pow_add, ← pow_add] at h'
    rw [show max a.kind.size b.kind.size - a.kind.size +
        (a.kind.size + b.kind.size - max a.kind.size b.kind.size) = b.kind.size by omega,
      show max a.kind.size b.kind.size - b.kind.size +
        (a.kind.size + b.kind.size - max a.kind.size b.kind.size) = a.kind.size by omega] at h'
    exact h'
  · intro h
    have h' := congrArg
      (fun z => z * 2 ^ (max a.kind.size b.kind.size - a.kind.size +
        (max a.kind.size b.kind.size - b.kind.size))) h
    dsimp only at h'
    rw [mul_assoc, mul_assoc, ← pow_add, ← pow_add] at h'
    rw [show b.kind.size + (max a.kind.size b.kind.size - a.kind.size +
        (max a.kind.size b.kind.size - b.kind.size)) =
        max a.kind.size b.kind.size - a.kind.size + max a.kind.size b.kind.size by omega,
      show a.kind.size + (max a.kind.size b.kind.size - a.kind.size +
        (max a.kind.size b.kind.size - b.kind.size)) =
        max a.kind.size b.kind.size - b.kind.size + max a.kind.size b.kind.size by omega] at h'
    rw [pow_add, pow_add, ← mul_assoc, ← mul_assoc] at h'
    exact Nat.eq_of_mul_eq_mul_right (two_pow_pos _) h'

lemma hwLt_iff (a b : HW) :
    hwLt a b = true ↔
      (a.address * 2 ^ b.kind.size < b.address * 2 ^ a.kind.size ∨
        (a.address * 2 ^ b.kind.size = b.address * 2 ^ a.kind.size ∧
          a.kind.size < b.kind.size)) := by
  rw [hwLt]
  simp only [Bool.or_eq_true, Bool.and_eq_true, decide_eq_true_eq]
  rw [aligned_lt_iff, aligned_eq_iff]

lemma hwLe_iff (a b : HW) :
    hwLe a b = true ↔
      (a.address * 2 ^ b.kind.size < b.address * 2 ^ a.kind.size ∨
        (a.address * 2 ^ b.kind.size = b.address * 2 ^ a.kind.size ∧
          a.kind.size ≤ b.kind.size)) := by
  rw [hwLe]
  simp only [Bool.or_eq_true, Bool.and_eq_true, decide_eq_true_eq]
  rw [aligned_lt_iff, aligned_eq_iff]

lemma aligned_gt_iff (a b : HW) :
    (alignedAddressIntegers a b).2 < (alignedAddressIntegers a b).1 ↔
      b.address * 2 ^ a.kind.size < a.address * 2 ^ b.kind.size := by
  rw [aligned_eq]
  dsimp only
  have := aligned_lt_iff b a
  rw [aligned_eq] at this
  dsimp only at this
  rw [max_comm b.kind.size a.kind.size] at this
  exact this

lemma hwGt_iff (a b : HW) :
    hwGt a b = true ↔
      (b.address * 2 ^ a.kind.size < a.address * 2 ^ b.kind.size ∨
        (a.address * 2 ^ b.kind.size = b.address * 2 ^ a.kind.size ∧
          b.kind.size < a.kind.size)) := by
  rw [hwGt]
  simp only [gt_iff_lt, Bool.or_eq_true, Bool.and_eq_true, decide_eq_true_eq]
  rw [aligned_gt_iff, aligned_eq_iff]

lemma hwGe_iff (a b : HW) :
    hwGe a b = true ↔
      (b.address * 2 ^ a.kind.size < a.address * 2 ^ b.kind.size ∨
        (a.address * 2 ^ b.kind.size = b.address * 2 ^ a.kind.size ∧
          b.kind.size ≤ a.kind.size)) := by
  rw [hwGe]
  simp only [gt_iff_lt, ge_iff_le, Bool.or_eq_true, Bool.and_eq_true, decide_eq_true_eq]
  rw [aligned_gt_iff, aligned_eq_iff]

lemma cross_trans_ltlt (x y z sa sb sc : Nat) (h1 : x * 2 ^ sb < y * 2 ^ sa)
    (h2 : y * 2 ^ sc < z * 2 ^ sb) : x * 2 ^ sc < z * 2 ^ sa := by
  have h' : x * 2 ^ sc * 2 ^ sb < z * 2 ^ sa * 2 ^ sb := by
    calc x * 2 ^ sc * 2 ^ sb = x * 2 ^ sb * 2 ^ sc := by ring
      _ < y * 2 ^ sa * 2 ^ sc := Nat.mul_lt_mul_of_pos_right h1 (two_pow_pos sc)
      _ = y * 2 ^ sc * 2 ^ sa := by ring
      _ < z * 2 ^ sb * 2 ^ sa := Nat.mul_lt_mul_of_pos_right h2 (two_pow_pos sa)
      _ = z * 2 ^ sa * 2 ^ sb := by ring
  exact lt_of_mul_lt_mul_right h' (Nat.zero_le _)

lemma cross_trans_lteq (x y z sa sb sc : Nat) (h1 : x * 2 ^ sb < y * 2 ^ sa)
    (h2 : y * 2 ^ sc = z * 2 ^ sb) : x * 2 ^ sc < z * 2 ^ sa := by
  have h' : x * 2 ^ sc * 2 ^ sb < z * 2 ^ sa * 2 ^ sb := by
    calc x * 2 ^ sc * 2 ^ sb = x * 2 ^ sb * 2 ^ sc := by ring
      _ < y * 2 ^ sa * 2 ^ sc := Nat.mul_lt_mul_of_pos_right h1 (two_pow_pos sc)
      _ = y * 2 ^ sc * 2 ^ sa := by ring
      _ = z * 2 ^ sb * 2 ^ sa := by rw [h2]
      _ = z * 2 ^ sa * 2 ^ sb := by ring
  exact lt_of_mul_lt_mul_right h' (Nat.zero_le _)

lemma cross_trans_eqlt (x y z sa sb sc : Nat) (h1 : x * 2 ^ sb = y * 2 ^ sa)
    (h2 : y * 2 ^ sc < z * 2 ^ sb) : x * 2 ^ sc < z * 2 ^ sa := by
  have h' : x * 2 ^ sc * 2 ^ sb < z * 2 ^ sa * 2 ^ sb := by
    calc x * 2 ^ sc * 2 ^ sb = x * 2 ^ sb * 2 ^ sc := by ring
      _ = y * 2 ^ sa * 2 ^ sc := by rw [h1]
      _ = y * 2 ^ sc * 2 ^ sa := by ring
      _ < z * 2 ^ sb * 2 ^ sa := Nat.mul_lt_mul_of_pos_right h2 (two_pow_pos sa)
      _ = z * 2 ^ sa * 2 ^ sb := by ring
  exact lt_of_mul_lt_mul_right h' (Nat.zero_le _)

lemma cross_trans_eqeq (x y z sa sb sc : Nat) (h1 : x * 2 ^ sb = y * 2 ^ sa)
    (h2 : y * 2 ^ sc = z * 2 ^ sb) : x * 2 ^ sc = z * 2 ^ sa := by
  have h' : x * 2 ^ sc * 2 ^ sb = z * 2 ^ sa * 2 ^ sb := by
    calc x * 2 ^ sc * 2 ^ sb = x * 2 ^ sb * 2 ^ sc := by ring
      _ = y * 2 ^ sa * 2 ^ sc := by rw [h1]
      _ = y * 2 ^ sc * 2 ^ sa := by ring
      _ = z * 2 ^ sb * 2 ^ sa := by rw [h2]
      _ = z * 2 ^ sa * 2 ^ sb := by ring
  exact Nat.eq_of_mul_eq_mul_right (two_pow_pos sb) h'

/-- Claim C3: the comparisons form a total order across all kinds: `<` is
irreflexive and transitive, `<=` is total and antisymmetric (forcing equal
size and equal raw integer), `>`/`>=` are the mirror images of `<`/`<=`,
and each of the four operations agrees with the lexicographic comparison of
the pair (aligned integer, bit width). -/
theorem claimC3_theorem :
    (∀ a : HW, hwLt a a = false) ∧
      (∀ a b c : HW, hwLt a b = true → hwLt b c = true → hwLt a c = true) ∧
      (∀ a b : HW, hwLe a b = true ∨ hwLe b a = true) ∧
      (∀ a b : HW, hwLe a b = true → hwLe b a = true →
        a.kind.size = b.kind.size ∧ a.address = b.address) ∧
      (∀ a b : HW, hwGt a b = hwLt b a) ∧
      (∀ a b : HW, hwGe a b = hwLe b a) ∧
      (∀ a b : HW, hwLt a b = true ↔
        ((alignedAddressIntegers a b).1 < (alignedAddressIntegers a b).2 ∨
          ((alignedAddressIntegers a b).1 = (alignedAddressIntegers a b).2 ∧
            a.kind.size < b.kind.size))) ∧
      (∀ a b : HW, hwLe a b = true ↔
        ((alignedAddressIntegers a b).1 < (alignedAddressIntegers a b).2 ∨
          ((alignedAddressIntegers a b).1 = (alignedAddressIntegers a b).2 ∧
            a.kind.size ≤ b.kind.size))) ∧
      (∀ a b : HW, hwGt a b = true ↔
        ((alignedAddressIntegers a b).2 < (alignedAddressIntegers a b).1 ∨
          ((alignedAddressIntegers a b).1 = (alignedAddressIntegers a b).2 ∧
            b.kind.size < a.kind.size))) ∧
      (∀ a b : HW, hwGe a b = true ↔
        ((alignedAddressIntegers a b).2 < (alignedAddressIntegers a b).1 ∨
          ((alignedAddressIntegers a b).1 = (alignedAddressIntegers a b).2 ∧
            b.kind.size ≤ a.kind.size))) := by
  refine ⟨?_, ?_, ?_, ?_, ?_, ?_, ?_, ?_, ?_, ?_⟩
  · intro a
    rw [Bool.eq_false_iff]
    intro h
    rcases (hwLt_iff a a).mp h with h' | ⟨_, h'⟩
    · exact lt_irrefl _ h'
    · exact lt_irrefl _ h'
  · intro a b c h1 h2
    rw [hwLt_iff] at h1 h2 ⊢
    rcases h1 with h1 | ⟨h1, h1s⟩ <;> rcases h2 with h2 | ⟨h2, h2s⟩
    · exact Or.inl (cross_trans_ltlt _ _ _ _ _ _ h1 h2)
    · exact Or.inl (cross_trans_lteq _ _ _ _ _ _ h1 h2)
    · exact Or.inl (cross_trans_eqlt _ _ _ _ _ _ h1 h2)
    · exact Or.inr ⟨cross_trans_eqeq _ _ _ _ _ _ h1 h2, lt_trans h1s h2s⟩
  · intro a b
    rw [hwLe_iff, hwLe_iff]
    rcases lt_trichotomy (a.address * 2 ^ b.kind.size) (b.address * 2 ^ a.kind.size)
      with h | h | h
    · exact Or.inl (Or.inl h)
    · rcases Nat.le_total a.kind.size b.kind.size with hs | hs
      · exact Or.inl (Or.inr ⟨h, hs⟩)
      · exact Or.inr (Or.inr ⟨h.symm, hs⟩)
    · exact Or.inr (Or.inl h)
  · intro a b h1 h2
    rw [hwLe_iff] at h1 h2
    rcases h1 with h1 | ⟨h1, h1s⟩ <;> rcases h2 with h2 | ⟨h2, h2s⟩
    · exact absurd h2 (lt_asymm h1)
    · exact absurd h2.symm (ne_of_lt h1)
    · exact absurd h1 (ne_of_gt h2)
    · have hs : a.kind.size = b.kind.size := le_antisymm h1s h2s
      refine ⟨hs, ?_⟩
      rw [hs] at h1
      exact Nat.eq_of_mul_eq_mul_right (two_pow_pos _) h1
  · intro a b
    apply bool_eq_of_iff
    rw [hwGt_iff, hwLt_iff]
    constructor
    · rintro (h | ⟨h1, h2⟩)
      · exact Or.inl h
      · exact Or.inr ⟨h1.symm, h2⟩
    · rintro (h | ⟨h1, h2⟩)
      · exact Or.inl h
      · exact Or.inr ⟨h1.symm, h2⟩
  · intro a b
    apply bool_eq_of_iff
    rw [hwGe_iff, hwLe_iff]
    constructor
    · rintro (h | ⟨h1, h2⟩)
      · exact Or.inl h
      · exact Or.inr ⟨h1.symm, h2⟩
    · rintro (h | ⟨h1, h2⟩)
      · exact Or.inl h
      · exact Or.inr ⟨h1.symm, h2⟩
  · intro a b
    rw [hwLt]
    simp only [Bool.or_eq_true, Bool.and_eq_true, decide_eq_true_eq]
  · intro a b
    rw [hwLe]
    simp only [Bool.or_eq_true, Bool.and_eq_true, decide_eq_true_eq]
  · intro a b
    rw [hwGt]
    simp only [gt_iff_lt, Bool.or_eq_true, Bool.and_eq_true, decide_eq_true_eq]
  · intro a b
    rw [hwGe]
    simp only [gt_iff_lt, ge_iff_le, Bool.or_eq_true, Bool.and_eq_true, decide_eq_true_eq]

/-- Witness for C3: transitivity on a concrete chain through a tie on
aligned integers, and antisymmetry at a concrete reflexive pair. -/
theorem claimC3_witness :
    hwLt ⟨OUI, 1⟩ ⟨CDI32, 0x0101⟩ = true ∧
      ((⟨OUI, 5⟩ : HW).kind.size = (⟨OUI, 5⟩ : HW).kind.size ∧
        (⟨OUI, 5⟩ : HW).address = (⟨OUI, 5⟩ : HW).address) :=
  ⟨claimC3_theorem.2.1 ⟨OUI, 1⟩ ⟨CDI32, 0x0100⟩ ⟨CDI32, 0x0101⟩ (by decide) (by decide),
    claimC3_theorem.2.2.2.1 ⟨OUI, 5⟩ ⟨OUI, 5⟩ (by decide) (by decide)⟩

lemma lexLt_trans : ∀ a b c : List Char, lexLt a b = true → lexLt b c = true →
    lexLt a c = true := by
  intro a
  induction a with
  | nil =>
    intro b c h1 h2
    cases b with
    | nil => cases c <;> simp_all [lexLt]
    | cons y bs =>
      cases c with
      | nil => simp [lexLt] at h2
      | cons z cs => rfl
  | cons x as ih =>
    intro b c h1 h2
    cases b with
    | nil => simp [lexLt] at h1
    | cons y bs =>
      cases c with
      | nil => simp [lexLt] at h2
      | cons z cs =>
        simp only [lexLt, Bool.or_eq_true, Bool.and_eq_true, decide_eq_true_eq,
          beq_iff_eq] at h1 h2 ⊢
        rcases h1 with h1 | ⟨rfl, h1⟩
        · rcases h2 with h2 | ⟨rfl, h2⟩
          · exact Or.inl (lt_trans h1 h2)
          · exact Or.inl h1
        · rcases h2 with h2 | ⟨rfl, h2⟩
          · exact Or.inl h2
          · exact Or.inr ⟨rfl, ih bs cs h1 h2⟩

lemma lexLt_total : ∀ a b : List Char, lexLt a b = true ∨ a = b ∨ lexLt b a = true := by
  intro a
  induction a with
  | nil =>
    intro b
    cases b with
    | nil => exact Or.inr (Or.inl rfl)
    | cons y bs => exact Or.inl rfl
  | cons x as ih =>
    intro b
    cases b with
    | nil => exact Or.inr (Or.inr rfl)
    | cons y bs =>
      rcases lt_trichotomy x y with h | rfl | h
      · refine Or.inl ?_
        simp only [lexLt, Bool.or_eq_true, decide_eq_true_eq]
        exact Or.inl h
      · rcases ih bs with h | rfl | h
        · refine Or.inl ?_
          simp only [lexLt, Bool.or_eq_true, Bool.and_eq_true, beq_iff_eq]
          tauto
        · exact Or.inr (Or.inl rfl)
        · refine Or.inr (Or.inr ?_)
          simp only [lexLt, Bool.or_eq_true, Bool.and_eq_true, beq_iff_eq]
          tauto
      · refine Or.inr (Or.inr ?_)
        simp only [lexLt, Bool.or_eq_true, decide_eq_true_eq]
        exact Or.inl h

lemma lexLe_of_eq {a b : List Char} (h : a = b) : lexLe a b = true := by
  subst h
  simp [lexLe]

lemma lexLe_of_lt {a b : List Char} (h : lexLt a b = true) : lexLe a b = true := by
  simp [lexLe, h]

instance : IsTotal (List Char × Kind) candLe where
  total p q := by
    rcases lexLt_total p.1 q.1 with h | h | h
    · exact Or.inl (lexLe_of_lt h)
    · exact Or.inl (lexLe_of_eq h)
    · exact Or.inr (lexLe_of_lt h)

instance : IsTrans (List Char × Kind) candLe where
  trans p q r h1 h2 := by
    rw [candLe, lexLe, Bool.or_eq_true, beq_iff_eq] at h1 h2 ⊢
    rcases h1 with h1 | heq
    · rcases h2 with h2 | h2
      · exact Or.inl (lexLt_trans _ _ _ h1 h2)
      · rw [← h2]
        exact Or.inl h1
    · rw [heq]
      exact h2

lemma sorted_sortCands (m : List (List Char × Kind)) :
    List.Sorted candLe (sortCands m) :=
  List.sorted_insertionSort candLe m

lemma mem_sortCands {m : List (List Char × Kind)} {p : List Char × Kind} :
    p ∈ sortCands m ↔ p ∈ m :=
  List.mem_insertionSort candLe

lemma mem_setdefault {f : List Char} {cls : Kind} {m : List (List Char × Kind)}
    {p : List Char × Kind} (h : p ∈ setdefault f cls m) : p ∈ m ∨ p = (f, cls) := by
  rw [setdefault] at h
  split_ifs at h with hc
  · exact Or.inl h
  · rcases List.mem_append.mp h with h | h
    · exact Or.inl h
    · exact Or.inr (List.mem_singleton.mp h)

lemma mem_collectFormats {cls : Kind} {L : Nat} :
    ∀ {fs : List (List Char)} {m : List (List Char × Kind)} {p : List Char × Kind},
      p ∈ collectFormats cls L fs m →
        p ∈ m ∨ (p.1 ∈ fs ∧ p.1.length = L ∧ p.2 = cls) := by
  intro fs
  induction fs with
  | nil => intro m p h; exact Or.inl h
  | cons f fs ih =>
    intro m p h
    rw [collectFormats] at h
    rcases ih h with h' | ⟨h1, h2, h3⟩
    · split_ifs at h' with hl
      · rcases mem_setdefault h' with h'' | rfl
        · exact Or.inl h''
        · exact Or.inr ⟨List.mem_cons_self _ _, beq_iff_eq.mp hl, rfl⟩
      · exact Or.inl h'
    · exact Or.inr ⟨List.mem_cons_of_mem _ h1, h2, h3⟩

lemma mem_collectCands {L : Nat} :
    ∀ {classes : List Kind} {m : List (List Char × Kind)} {p : List Char × Kind},
      p ∈ collectCands L classes m →
        p ∈ m ∨ ∃ cls ∈ classes, p.1 ∈ cls.formats ∧ p.1.length = L ∧ p.2 = cls := by
  intro classes
  induction classes with
  | nil => intro m p h; exact Or.inl h
  | cons cls rest ih =>
    intro m p h
    rw [collectCands] at h
    rcases ih h with h' | ⟨c, hc, h1, h2, h3⟩
    · rcases mem_collectFormats h' with h'' | ⟨h1, h2, h3⟩
      · exact Or.inl h''
      · exact Or.inr ⟨cls, List.mem_cons_self _ _, h1, h2, h3⟩
    · exact Or.inr ⟨c, List.mem_cons_of_mem _ hc, h1, h2, h3⟩


lemma findFirstIdx_eq_none_of {P : α → Bool} :
    ∀ {l : List α}, (∀ p ∈ l, P p = false) → findFirstIdx P l = none := by
  intro l
  induction l with
  | nil => intro _; rfl
  | cons a l ih =>
    intro h
    rw [findFirstIdx, if_neg (by simp [h a (List.mem_cons_self _ _)]), ih]
    · rfl
    · intro p hp
      exact h p (List.mem_cons_of_mem _ hp)

lemma findFirstIdx_eq_some_of {P : α → Bool} :
    ∀ {l : List α} {k : Nat} {p : α}, l.get? k = some p → P p = true →
      (∀ j q, j < k → l.get? j = some q → P q = false) → findFirstIdx P l = some k := by
  intro l
  induction l with
  | nil => intro k p h; simp at h
  | cons a l ih =>
    intro k p hget hP hmin
    cases k with
    | zero =>
      rw [List.get?_cons_zero] at hget
      rw [findFirstIdx, if_pos (by rw [Option.some.inj hget]; exact hP)]
    | succ k =>
      have ha : P a = false := hmin 0 a (Nat.succ_pos k) rfl
      rw [List.get?_cons_succ] at hget
      rw [findFirstIdx, if_neg (by simp [ha]),
        ih hget hP (fun j q hj hq => hmin (j + 1) q (by omega) (by simpa using hq))]
      rfl

lemma find?_eq_findFirstIdx (P : α → Bool) :
    ∀ l : List α, l.find? P = (findFirstIdx P l).bind fun j => l.get? j := by
  intro l
  induction l with
  | nil => rfl
  | cons a l ih =>
    rw [findFirstIdx]
    by_cases h : P a = true
    · rw [List.find?_cons_of_pos _ h, if_pos h]
      rfl
    · rw [List.find?_cons_of_neg _ (by simpa using h), if_neg h, ih]
      cases findFirstIdx P l <;> rfl

lemma find?_congr {P Q : α → Bool} :
    ∀ {l : List α}, (∀ x ∈ l, P x = Q x) → l.find? P = l.find? Q := by
  intro l
  induction l with
  | nil => intro _; rfl
  | cons a l ih =>
    intro h
    have ha := h a (List.mem_cons_self _ _)
    by_cases hq : Q a = true
    · rw [List.find?_cons_of_pos _ (ha ▸ hq), List.find?_cons_of_pos _ hq]
    · have hqf : Q a = false := Bool.eq_false_iff.mpr hq
      have hpf : P a = false := ha.trans hqf
      rw [List.find?_cons_of_neg _ (by simp [hpf]), List.find?_cons_of_neg _ (by simp [hqf])]
      exact ih fun x hx => h x (List.mem_cons_of_mem _ hx)

lemma lexLe_char_mono : ∀ (i : Nat) (s t : List Char), lexLe s t = true →
    s.take i = t.take i → i < s.length → i < t.length → chAt s i ≤ chAt t i := by
  intro i
  induction i with
  | zero =>
    intro s t hle htake hs ht
    cases s with
    | nil => simp at hs
    | cons a as =>
      cases t with
      | nil => simp at ht
      | cons b bs =>
        rw [lexLe, Bool.or_eq_true, beq_iff_eq] at hle
        rcases hle with hlt | heq
        · simp only [lexLt, Bool.or_eq_true, Bool.and_eq_true, decide_eq_true_eq,
            beq_iff_eq] at hlt
          rcases hlt with h | ⟨rfl, _⟩
          · exact le_of_lt h
          · exact le_refl _
        · rw [List.cons.injEq] at heq
          rw [heq.1]
          exact le_refl _
  | succ i ih =>
    intro s t hle htake hs ht
    cases s with
    | nil => simp at hs
    | cons a as =>
      cases t with
      | nil => simp at ht
      | cons b bs =>
        rw [List.take_succ_cons, List.take_succ_cons, List.cons.injEq] at htake
        obtain ⟨rfl, htake'⟩ := htake
        have hle' : lexLe as bs = true := by
          rw [lexLe, Bool.or_eq_true, beq_iff_eq] at hle ⊢
          rcases hle with hlt | heq
          · simp only [lexLt, Bool.or_eq_true, Bool.and_eq_true, decide_eq_true_eq,
              beq_iff_eq, lt_irrefl, false_or, true_and] at hlt
            exact Or.inl hlt
          · rw [List.cons.injEq] at heq
            exact Or.inr heq.2
        rw [show chAt (a :: as) (i + 1) = chAt as i from rfl,
          show chAt (a :: bs) (i + 1) = chAt bs i from rfl]
        exact ih as bs hle' htake' (by simpa using hs) (by simpa using ht)

lemma tplAt_eq_get {cands : List (List Char × Kind)} {j : Nat} (h : j < cands.length) :
    tplAt cands j = (cands.get ⟨j, h⟩).1 := by
  rw [tplAt, List.getD_eq_getElem _ _ h, List.get_eq_getElem]

lemma tplAt_length {cands : List (List Char × Kind)} {norm : List Char}
    (Hlen : ∀ p ∈ cands, p.1.length = norm.length) {j : Nat} (h : j < cands.length) :
    (tplAt cands j).length = norm.length := by
  rw [tplAt_eq_get h]
  exact Hlen _ (List.get_mem _ _ _)

lemma window_mono {cands : List (List Char × Kind)} {norm : List Char}
    (Hsort : List.Sorted candLe cands)
    (Hlen : ∀ p ∈ cands, p.1.length = norm.length)
    {i : Nat} (hi : i < norm.length) {j k : Nat} (hjk : j ≤ k) (hk : k < cands.length)
    (hmj : (tplAt cands j).take i = norm.take i)
    (hmk : (tplAt cands k).take i = norm.take i) :
    chAt (tplAt cands j) i ≤ chAt (tplAt cands k) i := by
  have hj : j < cands.length := lt_of_le_of_lt (le_of_eq rfl) (lt_of_le_of_lt hjk hk)
  rcases eq_or_lt_of_le hjk with rfl | hlt
  · exact le_refl _
  · have hle : candLe (cands.get ⟨j, hj⟩) (cands.get ⟨k, hk⟩) :=
      Hsort.rel_get_of_lt (Fin.mk_lt_mk.mpr hlt)
    rw [candLe] at hle
    rw [tplAt_eq_get hj] at hmj
    rw [tplAt_eq_get hk] at hmk
    rw [tplAt_eq_get hj, tplAt_eq_get hk]
    exact lexLe_char_mono i _ _ hle (hmj.trans hmk.symm)
      (by rw [Hlen _ (List.get_mem _ _ _)]; exact hi)
      (by rw [Hlen _ (List.get_mem _ _ _)]; exact hi)

lemma advanceStart_ge (cands : List (List Char × Kind)) (i : Nat) (c : Char) :
    ∀ fuel start : Nat, start ≤ advanceStart cands i c fuel start := by
  intro fuel
  induction fuel with
  | zero => intro start; exact le_refl _
  | succ fuel ih =>
    intro start
    rw [advanceStart]
    split_ifs with h
    · exact le_trans (Nat.le_succ start) (ih (start + 1))
    · exact le_refl _

lemma advanceStart_le (cands : List (List Char × Kind)) (i : Nat) (c : Char) :
    ∀ fuel start : Nat, advanceStart cands i c fuel start ≤ start + fuel := by
  intro fuel
  induction fuel with
  | zero => intro start; exact le_refl _
  | succ fuel ih =>
    intro start
    rw [advanceStart]
    split_ifs with h
    · exact le_trans (ih (start + 1)) (by omega)
    · omega

lemma advanceStart_skipped (cands : List (List Char × Kind)) (i : Nat) (c : Char) :
    ∀ fuel start j : Nat, start ≤ j → j < advanceStart cands i c fuel start →
      chAt (tplAt cands j) i < c := by
  intro fuel
  induction fuel with
  | zero =>
    intro start j h1 h2
    rw [advanceStart] at h2
    omega
  | succ fuel ih =>
    intro start j h1 h2
    rw [advanceStart] at h2
    split_ifs at h2 with hguard
    · rcases eq_or_lt_of_le h1 with rfl | hlt
      · exact hguard
      · exact ih (start + 1) j hlt h2
    · omega

lemma advanceStart_stop (cands : List (List Char × Kind)) (i : Nat) (c : Char) :
    ∀ fuel start : Nat, advanceStart cands i c fuel start < start + fuel →
      ¬(chAt (tplAt cands (advanceStart cands i c fuel start)) i < c) := by
  intro fuel
  induction fuel with
  | zero =>
    intro start h
    rw [advanceStart] at h
    omega
  | succ fuel ih =>
    intro start h
    rw [advanceStart] at h ⊢
    split_ifs at h ⊢ with hguard
    · exact ih (start + 1) (by omega)
    · exact hguard

lemma shrinkEnd_le (cands : List (List Char × Kind)) (i : Nat) (c : Char) :
    ∀ fuel stop : Nat, shrinkEnd cands i c fuel stop ≤ stop := by
  intro fuel
  induction fuel with
  | zero => intro stop; exact le_refl _
  | succ fuel ih =>
    intro stop
    rw [shrinkEnd]
    split_ifs with h
    · exact le_trans (ih (stop - 1)) (by omega)
    · exact le_refl _

lemma shrinkEnd_ge (cands : List (List Char × Kind)) (i : Nat) (c : Char) :
    ∀ fuel stop : Nat, stop - fuel ≤ shrinkEnd cands i c fuel stop := by
  intro fuel
  induction fuel with
  | zero =>
    intro stop
    have hz : shrinkEnd cands i c 0 stop = stop := rfl
    omega
  | succ fuel ih =>
    intro stop
    rw [shrinkEnd]
    split_ifs with h
    · exact le_trans (by omega) (ih (stop - 1))
    · omega

lemma shrinkEnd_skipped (cands : List (List Char × Kind)) (i : Nat) (c : Char) :
    ∀ fuel stop j : Nat, shrinkEnd cands i c fuel stop ≤ j → j < stop →
      c < chAt (tplAt cands j) i := by
  intro fuel
  induction fuel with
  | zero =>
    intro stop j h1 h2
    have hz : shrinkEnd cands i c 0 stop = stop := rfl
    omega
  | succ fuel ih =>
    intro stop j h1 h2
    rw [shrinkEnd] at h1
    split_ifs at h1 with hguard
    · have hres := shrinkEnd_le cands i c fuel (stop - 1)
      rcases Nat.lt_or_ge j (stop - 1) with hlt | hge
      · exact ih (stop - 1) j h1 hlt
      · have : j = stop - 1 := by omega
        rw [this]
        exact hguard
    · omega

lemma shrinkEnd_stop (cands : List (List Char × Kind)) (i : Nat) (c : Char) :
    ∀ fuel stop : Nat, stop - fuel < shrinkEnd cands i c fuel stop →
      ¬(c < chAt (tplAt cands (shrinkEnd cands i c fuel stop - 1)) i) := by
  intro fuel
  induction fuel with
  | zero =>
    intro stop h
    have hz : shrinkEnd cands i c 0 stop = stop := rfl
    omega
  | succ fuel ih =>
    intro stop h
    rw [shrinkEnd] at h ⊢
    split_ifs at h ⊢ with hguard
    · exact ih (stop - 1) (by omega)
    · exact hguard


lemma take_succ_char {t norm : List Char} {i : Nat} (hlen : t.length = norm.length)
    (hi : i < norm.length) :
    t.take (i + 1) = norm.take (i + 1) ↔
      (t.take i = norm.take i ∧ chAt t i = chAt norm i) := by
  have hit : i < t.length := by omega
  rw [List.take_succ, List.take_succ,
    List.getElem?_eq_getElem hit, List.getElem?_eq_getElem hi]
  rw [show chAt t i = t[i] from List.getD_eq_getElem t '?' hit,
    show chAt norm i = norm[i] from List.getD_eq_getElem norm '?' hi]
  constructor
  · intro h
    rw [Option.toList_some, Option.toList_some, ← List.concat_eq_append,
      ← List.concat_eq_append] at h
    exact ⟨(List.concat_inj.mp h).1, (List.concat_inj.mp h).2⟩
  · intro ⟨h1, h2⟩
    rw [h1, h2]

lemma narrow_step {cands : List (List Char × Kind)} {norm : List Char}
    (Hsort : List.Sorted candLe cands)
    (Hlen : ∀ p ∈ cands, p.1.length = norm.length)
    {i : Nat} (hi : i < norm.length) {start stop : Nat} {c : Char}
    (hc : chAt norm i = c)
    (hInv : windowInv cands norm i start stop) :
    (shrinkEnd cands i c (stop - advanceStart cands i c (stop - start) start) stop ≤
        advanceStart cands i c (stop - start) start →
      ∀ j, j < cands.length → ¬((tplAt cands j).take (i + 1) = norm.take (i + 1))) ∧
    (advanceStart cands i c (stop - start) start <
        shrinkEnd cands i c (stop - advanceStart cands i c (stop - start) start) stop →
      windowInv cands norm (i + 1)
        (advanceStart cands i c (stop - start) start)
        (shrinkEnd cands i c (stop - advanceStart cands i c (stop - start) start) stop)) := by
  obtain ⟨hss, hsl, hwin⟩ := hInv
  set s' := advanceStart cands i c (stop - start) start with hs'
  set e' := shrinkEnd cands i c (stop - s') stop with he'
  have f1 : start ≤ s' := advanceStart_ge cands i c _ _
  have f2 : s' ≤ stop := by
    have := advanceStart_le cands i c (stop - start) start
    omega
  have f3 : e' ≤ stop := shrinkEnd_le cands i c _ _
  have f4 : s' ≤ e' := by
    have := shrinkEnd_ge cands i c (stop - s') stop
    omega
  have skippedA : ∀ j, start ≤ j → j < s' → chAt (tplAt cands j) i < c :=
    fun j h1 h2 => advanceStart_skipped cands i c _ _ j h1 h2
  have stopA : s' < stop → ¬(chAt (tplAt cands s') i < c) := by
    intro h
    exact advanceStart_stop cands i c (stop - start) start (by omega)
  have skippedE : ∀ j, e' ≤ j → j < stop → c < chAt (tplAt cands j) i :=
    fun j h1 h2 => shrinkEnd_skipped cands i c _ _ j h1 h2
  have stopE : s' < e' → ¬(c < chAt (tplAt cands (e' - 1)) i) := by
    intro h
    exact shrinkEnd_stop cands i c (stop - s') stop (by omega)
  have keyChar : ∀ j, j < cands.length →
      ((tplAt cands j).take (i + 1) = norm.take (i + 1) ↔
        ((tplAt cands j).take i = norm.take i ∧ chAt (tplAt cands j) i = c)) := by
    intro j hj
    rw [take_succ_char (tplAt_length Hlen hj) hi, hc]
  have keyA : ∀ j, j < cands.length →
      (tplAt cands j).take (i + 1) = norm.take (i + 1) → s' ≤ j ∧ j < e' := by
    intro j hj hm
    obtain ⟨hm1, hm2⟩ := (keyChar j hj).mp hm
    obtain ⟨hw1, hw2⟩ := (hwin j hj).mpr hm1
    constructor
    · by_contra hlt
      have hcon := skippedA j hw1 (by omega)
      rw [hm2] at hcon
      exact absurd hcon (lt_irrefl c)
    · by_contra hge
      have hcon := skippedE j (by omega) hw2
      rw [hm2] at hcon
      exact absurd hcon (lt_irrefl c)
  have keyB : s' < e' → ∀ j, s' ≤ j → j < e' →
      (tplAt cands j).take (i + 1) = norm.take (i + 1) := by
    intro hse j h1 h2
    have hj : j < cands.length := by omega
    have hjw : (tplAt cands j).take i = norm.take i :=
      (hwin j hj).mp ⟨by omega, by omega⟩
    have hsW : (tplAt cands s').take i = norm.take i :=
      (hwin s' (by omega)).mp ⟨by omega, by omega⟩
    have heW : (tplAt cands (e' - 1)).take i = norm.take i :=
      (hwin (e' - 1) (by omega)).mp ⟨by omega, by omega⟩
    have hge : c ≤ chAt (tplAt cands j) i :=
      le_trans (not_lt.mp (stopA (by omega)))
        (window_mono Hsort Hlen hi h1 hj hsW hjw)
    have hle : chAt (tplAt cands j) i ≤ c :=
      le_trans (window_mono Hsort Hlen hi (by omega) (by omega) hjw heW)
        (not_lt.mp (stopE hse))
    exact (keyChar j hj).mpr ⟨hjw, le_antisymm hle hge⟩
  constructor
  · intro hfail j hj hm
    have := keyA j hj hm
    omega
  · intro hse
    exact ⟨le_of_lt hse, le_trans f3 hsl, fun j hj =>
      ⟨fun h => keyB hse j h.1 h.2, fun hm => keyA j hj hm⟩⟩

lemma scanLoop_correct {cands : List (List Char × Kind)} {input : List Char}
    (Hsort : List.Sorted candLe cands)
    (Hlen : ∀ p ∈ cands, p.1.length = input.length) :
    ∀ (rest : List Char) (i start stop addr : Nat),
      input.drop i = rest →
      windowInv cands (input.map normChar) i start stop → start < stop →
      scanLoop cands rest i addr start stop =
        (findFirstIdx (fun p => p.1 == input.map normChar) cands).map
          (fun j =>
            (rest.foldl (fun a c => if isHexDigit c then a * 16 + hexVal c else a) addr,
              j)) := by
  have HlenN : ∀ p ∈ cands, p.1.length = (input.map normChar).length := by
    intro p hp
    rw [List.length_map]
    exact Hlen p hp
  intro rest
  induction rest with
  | nil =>
    intro i start stop addr hdrop hInv hss
    obtain ⟨h1, h2, hwin⟩ := hInv
    have hLi : input.length ≤ i := by
      rwa [List.drop_eq_nil_iff] at hdrop
    have hfull : ∀ j, j < cands.length →
        ((start ≤ j ∧ j < stop) ↔ tplAt cands j = input.map normChar) := by
      intro j hj
      rw [hwin j hj,
        List.take_of_length_le (le_trans (le_of_eq (tplAt_length HlenN hj)) (by
          rw [List.length_map]; exact hLi)),
        List.take_of_length_le (by rw [List.length_map]; exact hLi)]
    have hstart_lt : start < cands.length := lt_of_lt_of_le hss h2
    have hs_match : tplAt cands start = input.map normChar :=
      (hfull start hstart_lt).mp ⟨le_refl _, hss⟩
    have hPtrue : (fun p => p.1 == input.map normChar) (cands.get ⟨start, hstart_lt⟩)
        = true := by
      rw [beq_iff_eq, ← tplAt_eq_get hstart_lt]
      exact hs_match
    have hmin : ∀ j q, j < start → cands.get? j = some q →
        (fun p => p.1 == input.map normChar) q = false := by
      intro j q hj hq
      have hjlt : j < cands.length := (List.get?_eq_some.mp hq).choose
      have hgetj : cands.get ⟨j, hjlt⟩ = q := by
        have := List.get?_eq_get hjlt
        rw [this] at hq
        exact Option.some.inj hq
      rw [Bool.eq_false_iff]
      intro hbeq
      have hqn : q.1 = input.map normChar := beq_iff_eq.mp hbeq
      have : start ≤ j ∧ j < stop := (hfull j hjlt).mpr (by
        rw [tplAt_eq_get hjlt, hgetj]
        exact hqn)
      omega
    rw [scanLoop, findFirstIdx_eq_some_of (List.get?_eq_get hstart_lt) hPtrue hmin]
    rfl
  | cons ch rest ih =>
    intro i start stop addr hdrop hInv hss
    have hi : i < input.length := by
      by_contra h
      rw [List.drop_eq_nil_of_le (not_lt.mp h)] at hdrop
      exact List.noConfusion hdrop
    have hdrop2 : input.get ⟨i, hi⟩ = ch ∧ input.drop (i + 1) = rest := by
      rw [show input.drop i = input.get ⟨i, hi⟩ :: input.drop (i + 1) by
        rw [List.drop_eq_getElem_cons hi]; rfl] at hdrop
      rw [List.cons.injEq] at hdrop
      exact hdrop
    have hiN : i < (input.map normChar).length := by
      rw [List.length_map]
      exact hi
    have hcn : chAt (input.map normChar) i = normChar ch := by
      rw [chAt, List.getD_eq_getElem _ '?' hiN, List.getElem_map]
      rw [show input[i] = input.get ⟨i, hi⟩ from rfl, hdrop2.1]
    have hstep := narrow_step Hsort HlenN hiN hcn hInv
    rw [scanLoop]
    split_ifs with hguard hhex hhex
    · rw [findFirstIdx_eq_none_of]
      · rfl
      · intro p hp
        rw [Bool.eq_false_iff]
        intro hbeq
        obtain ⟨⟨j, hj⟩, hget⟩ := List.mem_iff_get.mp hp
        have hmatch : (tplAt cands j).take (i + 1) =
            (input.map normChar).take (i + 1) := by
          rw [tplAt_eq_get hj, hget, beq_iff_eq.mp hbeq]
        exact hstep.1 hguard j hj hmatch
    · have hlt := not_le.mp hguard
      rw [ih (i + 1) _ _ (addr * 16 + hexVal ch) hdrop2.2 (hstep.2 hlt) hlt]
      simp [List.foldl_cons, hhex]
    · have hlt := not_le.mp hguard
      rw [ih (i + 1) _ _ addr hdrop2.2 (hstep.2 hlt) hlt]
      simp [List.foldl_cons, hhex]

lemma parseCore_eq_find (input : List Char) (classes : List Kind) (hne : input ≠ []) :
    parseCore input classes =
      match (sortCands (collectCands input.length classes [])).find?
          (fun p => p.1 == input.map normChar) with
      | none => none
      | some (_, cls) => some (accumHex input >>> off4 cls.size, cls) := by
  have hlen0 : ¬(input.length < 1) := by
    cases input with
    | nil => exact absurd rfl hne
    | cons c l => simp
  rw [parseCore, if_neg hlen0]
  dsimp only
  have Hsort := sorted_sortCands (collectCands input.length classes [])
  have Hlen : ∀ p ∈ sortCands (collectCands input.length classes []),
      p.1.length = input.length := by
    intro p hp
    rcases mem_collectCands (mem_sortCands.mp hp) with h | ⟨cls, _, _, h2, _⟩
    · simp at h
    · exact h2
  by_cases hE : (sortCands (collectCands input.length classes [])).length = 0
  · have hcnil : sortCands (collectCands input.length classes []) = [] :=
      List.length_eq_zero.mp hE
    rw [hcnil]
    cases input with
    | nil => exact absurd rfl hne
    | cons c l => rfl
  · have hpos : 0 < (sortCands (collectCands input.length classes [])).length :=
      Nat.pos_of_ne_zero hE
    have hInv0 : windowInv (sortCands (collectCands input.length classes []))
        (input.map normChar) 0 0
        (sortCands (collectCands input.length classes [])).length :=
      ⟨Nat.zero_le _, le_refl _, fun j hj => by simp [hj]⟩
    rw [scanLoop_correct Hsort Hlen input 0 0 _ 0 rfl hInv0 hpos]
    rw [find?_eq_findFirstIdx]
    cases hF : findFirstIdx (fun p => p.1 == input.map normChar)
        (sortCands (collectCands input.length classes [])) with
    | none => rfl
    | some j =>
      cases hG : (sortCands (collectCands input.length classes [])).get? j with
      | none => rfl
      | some p => rfl

lemma structMatchesX_cons (c b : Char) (t s : List Char) :
    structMatchesX (c :: t) (b :: s) =
      ((if c == 'x' then isHexDigit b || b == 'x' else c == b) && structMatchesX t s) := by
  rw [structMatchesX, structMatchesX]
  simp only [List.length_cons, List.zip_cons_cons, List.all_cons]
  rw [show ((t.length + 1 == s.length + 1) : Bool) = (t.length == s.length) by
    apply bool_eq_of_iff
    rw [beq_iff_eq, beq_iff_eq]
    omega]
  rw [Bool.and_left_comm]

lemma structMatchesX_iff : ∀ (t s : List Char),
    (∀ c ∈ t, c = 'x' ∨ isHexDigit c = false) →
    (structMatchesX t s = true ↔ t = s.map normChar) := by
  intro t
  induction t with
  | nil =>
    intro s ht
    cases s with
    | nil => simp [structMatchesX]
    | cons b s' => simp [structMatchesX]
  | cons c t' ih =>
    intro s ht
    cases s with
    | nil => simp [structMatchesX]
    | cons b s' =>
      have hc := ht c (List.mem_cons_self _ _)
      have ht' : ∀ d ∈ t', d = 'x' ∨ isHexDigit d = false :=
        fun d hd => ht d (List.mem_cons_of_mem _ hd)
      rw [structMatchesX_cons, Bool.and_eq_true, ih s' ht', List.map_cons,
        List.cons.injEq]
      have hhead : ((if c == 'x' then isHexDigit b || b == 'x' else c == b) = true) ↔
          c = normChar b := by
        by_cases hcx : c = 'x'
        · subst hcx
          rw [if_pos (by simp)]
          rw [normChar]
          by_cases hb : isHexDigit b = true
          · rw [if_pos hb]
            simp [hb]
          · rw [if_neg (by simp [hb])]
            simp only [hb, Bool.false_or, beq_iff_eq]
            exact ⟨fun h => h.symm, fun h => h.symm⟩
        · have hchex : isHexDigit c = false := by
            rcases hc with rfl | h
            · exact absurd rfl hcx
            · exact h
          rw [if_neg (by simp [hcx]), beq_iff_eq, normChar]
          by_cases hb : isHexDigit b = true
          · simp only [hb, if_true]
            constructor
            · intro h
              subst h
              rw [hchex] at hb
              exact Bool.noConfusion hb
            · intro h
              exact absurd h hcx
          · simp [hb]
      rw [hhead]

/-- Claim C4 (counterexample): on the input string `xx-xx-xx` with sole
candidate `OUI`, the window matcher succeeds (each literal `x` of the input
survives normalization and compares equal to the template wildcard,
accumulating no hex digits), while the claim's naive matcher requires a
hexadecimal digit at every wildcard position and fails; so the two are not
equivalent even though every `OUI` template consists only of wildcards and
non-hex literals. -/
theorem claimC4_counterexample :
    parseCore ("xx-xx-xx".toList) [OUI] = some (0, OUI) ∧
      naiveParse structMatches ("xx-xx-xx".toList) [OUI] = none ∧
      parseCore ("xx-xx-xx".toList) [OUI] ≠
        naiveParse structMatches ("xx-xx-xx".toList) [OUI] := by
  refine ⟨by decide, by decide, by decide⟩

/-- Claim C4 (amended): for a non-empty input and candidate kinds whose
templates consist only of the wildcard symbol and non-hex-digit literal
characters, the window-narrowing matcher is equivalent to the naive
reference matcher whose structural match accepts, at a wildcard position, a
hexadecimal digit or the literal character `x` itself (literal equality
elsewhere); it returns the lexicographically smallest matching template
with the first candidate kind that offers it, the extracted integer being
the big-endian accumulation of the input's hex digits right-shifted by
`(4 - bit_width mod 4) mod 4`, and fails otherwise. -/
theorem claimC4_theorem (input : List Char) (classes : List Kind) (hne : input ≠ [])
    (ht : ∀ K ∈ classes, ∀ f ∈ K.formats, ∀ c ∈ f, c = 'x' ∨ isHexDigit c = false) :
    parseCore input classes = naiveParse structMatchesX input classes := by
  have hlen0 : ¬(input.length < 1) := by
    cases input with
    | nil => exact absurd rfl hne
    | cons c l => simp
  rw [parseCore_eq_find input classes hne, naiveParse, if_neg hlen0]
  have hcong : (sortCands (collectCands input.length classes [])).find?
      (fun p => p.1 == input.map normChar) =
      (sortCands (collectCands input.length classes [])).find?
        (fun p => structMatchesX p.1 input) := by
    apply find?_congr
    intro p hp
    rcases mem_collectCands (mem_sortCands.mp hp) with h | ⟨cls, hcls, h1, h2, h3⟩
    · simp at h
    · apply bool_eq_of_iff
      rw [beq_iff_eq, structMatchesX_iff p.1 input (ht cls hcls p.1 h1)]
  rw [hcong]

/-- Witness for the amended C4 at a concrete EUI-48 input. -/
theorem claimC4_witness :
    parseCore ("01-23-45-67-89-AB".toList) [EUI48] =
      naiveParse structMatchesX ("01-23-45-67-89-AB".toList) [EUI48] :=
  claimC4_theorem ("01-23-45-67-89-AB".toList) [EUI48] (by decide) (by decide)



lemma render_eq_renderCore (t : List Char) (size addr : Nat) :
    render t size addr = renderCore t (addr <<< off4 size) := rfl

lemma countX_append (l1 l2 : List Char) :
    countX (l1 ++ l2) = countX l1 + countX l2 := by
  induction l1 with
  | nil => simp [countX]
  | cons c l ih => simp [countX, ih]; omega

lemma countX_reverse (l : List Char) : countX l.reverse = countX l := by
  induction l with
  | nil => rfl
  | cons c l ih => rw [List.reverse_cons, countX_append, ih, countX, countX, countX]; omega

lemma renderAux_append (l : List Char) (c : Char) :
    ∀ v : Nat, renderAux (l ++ [c]) v =
      renderAux l v ++ [if c = 'x' then hexDigitChar (v / 16 ^ countX l % 16) else c] := by
  induction l with
  | nil =>
    intro v
    by_cases hc : c = 'x'
    · simp [renderAux, countX, hc]
    · simp [renderAux, countX, hc]
  | cons d l ih =>
    intro v
    rw [List.cons_append, renderAux, renderAux]
    by_cases hd : d = 'x'
    · have hcx : countX (d :: l) = countX l + 1 := by
        rw [countX, if_pos hd]
        omega
      have harg : v / 16 / 16 ^ countX l = v / 16 ^ countX (d :: l) := by
        rw [Nat.div_div_eq_div_mul, hcx, pow_succ, mul_comm]
      rw [if_pos hd, if_pos hd, ih (v / 16), List.cons_append, harg]
    · have hcx : countX (d :: l) = countX l := by
        rw [countX, if_neg hd]
        omega
      rw [if_neg hd, if_neg hd, ih v, List.cons_append, hcx]

lemma renderCore_cons (c : Char) (t : List Char) (v : Nat) :
    renderCore (c :: t) v =
      (if c = 'x' then hexDigitChar (v / 16 ^ countX t % 16) else c) :: renderCore t v := by
  rw [renderCore, renderCore, List.reverse_cons, renderAux_append, List.reverse_append,
    countX_reverse]
  rfl

lemma renderCore_length (t : List Char) (v : Nat) :
    (renderCore t v).length = t.length := by
  rw [renderCore, List.length_reverse]
  induction t generalizing v with
  | nil => rfl
  | cons c t' ih =>
    rw [List.reverse_cons, renderAux_append, List.length_append]
    simp [ih]

lemma hexDigitChar_isHex {d : Nat} (h : d < 16) : isHexDigit (hexDigitChar d) = true := by
  interval_cases d <;> decide

lemma hexVal_hexDigitChar {d : Nat} (h : d < 16) : hexVal (hexDigitChar d) = d := by
  interval_cases d <;> decide

lemma map_norm_renderCore : ∀ (t : List Char) (v : Nat),
    (∀ c ∈ t, c = 'x' ∨ isHexDigit c = false) →
    (renderCore t v).map normChar = t := by
  intro t
  induction t with
  | nil => intro v ht; rfl
  | cons c t' ih =>
    intro v ht
    rw [renderCore_cons, List.map_cons,
      ih v (fun d hd => ht d (List.mem_cons_of_mem _ hd))]
    congr 1
    split_ifs with hcx
    · rw [normChar, if_pos (hexDigitChar_isHex (Nat.mod_lt _ (by norm_num))), hcx]
    · have hchex : isHexDigit c = false := by
        rcases ht c (List.mem_cons_self _ _) with rfl | h
        · exact absurd rfl hcx
        · exact h
      rw [normChar, if_neg (by simp [hchex])]

lemma foldl_accum_renderCore : ∀ (t : List Char) (v a : Nat),
    (∀ c ∈ t, c = 'x' ∨ isHexDigit c = false) →
    (renderCore t v).foldl (fun x c => if isHexDigit c then x * 16 + hexVal c else x) a =
      a * 16 ^ countX t + v % 16 ^ countX t := by
  intro t
  induction t with
  | nil =>
    intro v a ht
    simp [renderCore, renderAux, countX, Nat.mod_one]
  | cons c t' ih =>
    intro v a ht
    have ht' : ∀ d ∈ t', d = 'x' ∨ isHexDigit d = false :=
      fun d hd => ht d (List.mem_cons_of_mem _ hd)
    rw [renderCore_cons]
    split_ifs with hcx
    · have hd : v / 16 ^ countX t' % 16 < 16 := Nat.mod_lt _ (by norm_num)
      rw [List.foldl_cons, if_pos (hexDigitChar_isHex hd), hexVal_hexDigitChar hd,
        ih v _ ht']
      rw [countX, if_pos hcx, show (1 : Nat) + countX t' = countX t' + 1 by omega,
        mod_pow_succ_decomp 16 (countX t') v]
      ring
    · have hchex : isHexDigit c = false := by
        rcases ht c (List.mem_cons_self _ _) with rfl | h
        · exact absurd rfl hcx
        · exact h
      rw [List.foldl_cons, if_neg (by simp [hchex]), ih v a ht', countX, if_neg hcx]
      simp

lemma exists_key_setdefault (f : List Char) (cls : Kind) (m : List (List Char × Kind)) :
    ∃ p ∈ setdefault f cls m, p.1 = f := by
  rw [setdefault]
  split_ifs with h
  · obtain ⟨p, hp, hbeq⟩ := List.any_eq_true.mp h
    exact ⟨p, hp, beq_iff_eq.mp hbeq⟩
  · exact ⟨(f, cls), List.mem_append_right _ (List.mem_singleton.mpr rfl), rfl⟩

lemma exists_key_mono_setdefault {f : List Char} {m : List (List Char × Kind)}
    (g : List Char) (cls : Kind) (h : ∃ p ∈ m, p.1 = f) :
    ∃ p ∈ setdefault g cls m, p.1 = f := by
  obtain ⟨p, hp, hpf⟩ := h
  rw [setdefault]
  split_ifs with hc
  · exact ⟨p, hp, hpf⟩
  · exact ⟨p, List.mem_append_left _ hp, hpf⟩

lemma exists_key_mono_collectFormats {f : List Char} {cls : Kind} {L : Nat} :
    ∀ {fs : List (List Char)} {m : List (List Char × Kind)},
      (∃ p ∈ m, p.1 = f) → ∃ p ∈ collectFormats cls L fs m, p.1 = f := by
  intro fs
  induction fs with
  | nil => intro m h; exact h
  | cons g fs ih =>
    intro m h
    rw [collectFormats]
    apply ih
    split_ifs with hl
    · exact exists_key_mono_setdefault g cls h
    · exact h

lemma exists_key_collectFormats {f : List Char} {cls : Kind} {L : Nat} :
    ∀ {fs : List (List Char)} {m : List (List Char × Kind)},
      f ∈ fs → f.length = L → ∃ p ∈ collectFormats cls L fs m, p.1 = f := by
  intro fs
  induction fs with
  | nil => intro m h; simp at h
  | cons g fs ih =>
    intro m hmem hlen
    rcases List.mem_cons.mp hmem with rfl | hmem'
    · rw [collectFormats, if_pos (by simp [hlen])]
      exact exists_key_mono_collectFormats (exists_key_setdefault f cls m)
    · rw [collectFormats]
      exact ih hmem' hlen

/-- Claim C6: rendering a valid integer under any format template of a
valid kind and re-parsing the resulting string with that kind as sole
candidate succeeds and yields a value equal to the value constructed from
the integer. Validity of the kind is spelled out per the spec's data-model
invariant: a positive bit width, templates made of the wildcard symbol and
non-hex literals, and `ceil(bit_width / 4)` wildcards per template. -/
theorem claimC6_theorem (K : Kind) (f : List Char) (n : Nat)
    (hf : f ∈ K.formats)
    (ht : ∀ c ∈ f, c = 'x' ∨ isHexDigit c = false)
    (hcount : countX f = (K.size + 3) / 4)
    (hpos : 0 < K.size)
    (hn : n < 2 ^ K.size) :
    fromText K (render f K.size n) = .ok ⟨K, n⟩ ∧
      fromInteger K ((n : Nat) : Int) = .ok ⟨K, n⟩ := by
  constructor
  · have hx1 : 0 < countX f := by
      rw [hcount]
      omega
    have hfne : f ≠ [] := by
      intro h
      rw [h] at hx1
      simp [countX] at hx1
    have hrc : render f K.size n = renderCore f (n <<< off4 K.size) := rfl
    have hlenr : (render f K.size n).length = f.length := by
      rw [hrc]
      exact renderCore_length _ _
    have hrne : render f K.size n ≠ [] := by
      intro h
      rw [h] at hlenr
      exact hfne (List.length_eq_zero.mp hlenr.symm)
    have hnorm : (render f K.size n).map normChar = f := by
      rw [hrc]
      exact map_norm_renderCore f _ ht
    rw [fromText, parseCore_eq_find _ [K] hrne]
    have hcoll : collectCands (render f K.size n).length [K] [] =
        collectFormats K (render f K.size n).length K.formats [] := rfl
    have hexists : ∃ p ∈ sortCands (collectCands (render f K.size n).length [K] []),
        p.1 = f := by
      obtain ⟨p, hp, hpf⟩ :=
        @exists_key_collectFormats f K (render f K.size n).length K.formats
          ([] : List (List Char × Kind)) hf hlenr.symm
      exact ⟨p, mem_sortCands.mpr (by rw [hcoll]; exact hp), hpf⟩
    cases hfind : (sortCands (collectCands (render f K.size n).length [K] [])).find?
        (fun p => p.1 == (render f K.size n).map normChar) with
    | none =>
      exfalso
      obtain ⟨p, hp, hpf⟩ := hexists
      exact (List.find?_eq_none.mp hfind p hp) (by rw [hnorm]; simp [hpf])
    | some p =>
      have hpmem := List.mem_of_find?_eq_some hfind
      have hpK : p.2 = K := by
        rcases mem_collectCands (mem_sortCands.mp hpmem) with h | ⟨cls, hcls, _, _, h3⟩
        · simp at h
        · rw [h3, List.mem_singleton.mp hcls]
      have hshift : K.size + off4 K.size = 4 * countX f := by
        rw [hcount, off4]
        omega
      have hlt16 : n <<< off4 K.size < 16 ^ countX f := by
        rw [Nat.shiftLeft_eq]
        calc n * 2 ^ off4 K.size < 2 ^ K.size * 2 ^ off4 K.size :=
              Nat.mul_lt_mul_of_pos_right hn (two_pow_pos _)
          _ = 2 ^ (K.size + off4 K.size) := (pow_add 2 _ _).symm
          _ = 16 ^ countX f := by
              rw [hshift, show (16 : Nat) = 2 ^ 4 by norm_num, ← pow_mul]
      have haccum : accumHex (render f K.size n) = n <<< off4 K.size := by
        rw [hrc, accumHex, foldl_accum_renderCore f _ 0 ht, Nat.zero_mul, Nat.zero_add,
          Nat.mod_eq_of_lt hlt16]
      dsimp only
      rw [haccum, hpK, shiftLeft_shiftRight_cancel]
  · have hcast : ((n : Nat) : Int) < (2 : Int) ^ K.size := by exact_mod_cast hn
    rw [fromInteger, if_neg (not_le.mpr hcast), if_neg (not_lt.mpr (Int.natCast_nonneg n))]
    simp

/-- Witness for C6 at `K = EUI48`, `f = xxxx.xxxx.xxxx`,
`n = 0x0123456789AB`. -/
theorem claimC6_witness :
    fromText EUI48 (render ("xxxx.xxxx.xxxx".toList) (EUI48).size 0x0123456789AB) =
        .ok ⟨EUI48, 0x0123456789AB⟩ ∧
      fromInteger EUI48 ((0x0123456789AB : Nat) : Int) = .ok ⟨EUI48, 0x0123456789AB⟩ :=
  claimC6_theorem EUI48 ("xxxx.xxxx.xxxx".toList) 0x0123456789AB
    (by decide) (by decide) (by decide) (by decide) (by decide)
